import Mathlib

/-!
# stringset: a set of strings (Go package `stringset`)

A shallow embedding of `stringset.go`.

* A Go `string` is a sequence of bytes (`Str`); comparison is byte-wise.
* A Go `[]string` is `Option (List Str)`: `none` is the nil slice, `some []` an
  allocated slice of length zero.
* A Go `map[string]struct{}` that has been allocated is a `GoMap`: its keys, in
  the order a `range` loop visits them, without repetition.  The order is not
  specified by Go; every theorem holds for every order.
* `Set` is either `nil` (no map allocated) or an allocated map.
* Mutation is explicit state passing: an operation returns the map it leaves
  behind.
-/

namespace stringset

/-! ## Strings -/

/-- A Go `byte`. -/
abbrev Byte := Fin 256

/-- A Go `string`. -/
abbrev Str := List Byte

/-- The conversion `byte(n)`: the low eight bits of `n`. -/
def byte (n : Nat) : Byte := ⟨n % 256, Nat.mod_lt n (by decide)⟩

/-- Go `a < b` on strings: byte-wise lexicographic comparison, a proper prefix
being smaller. -/
def strLess : Str → Str → Bool
  | [], [] => false
  | [], _ :: _ => true
  | _ :: _, [] => false
  | a :: as, b :: bs =>
    if a.val < b.val then true
    else if b.val < a.val then false
    else strLess as bs

/-- Go `a <= b` on strings. -/
def strLE (a b : Str) : Prop := strLess b a = false

instance : DecidableRel strLE := fun a b => inferInstanceAs (Decidable (strLess b a = false))

/-! ## UTF-8 (package `unicode/utf8`) -/

/-- The constant `utf8.RuneError`, U+FFFD. -/
def RuneError : Nat := 0xFFFD

/-- The three-byte form written by `utf8.AppendRune`. -/
def encode3 (r : Nat) : List Byte :=
  [byte (0xE0 + r / 4096), byte (0x80 + r / 64 % 64), byte (0x80 + r % 64)]

/-- The function `utf8.AppendRune` (`utf8.EncodeRune`): the UTF-8 bytes of rune `r`;
a surrogate or a value above U+10FFFF is written as U+FFFD.  The shifts and masks
of the source are divisions and remainders by powers of two. -/
def encodeRune (r : Nat) : List Byte :=
  if r ≤ 0x7F then [byte r]
  else if r ≤ 0x7FF then [byte (0xC0 + r / 64), byte (0x80 + r % 64)]
  else if 0x10FFFF < r ∨ (0xD800 ≤ r ∧ r ≤ 0xDFFF) then encode3 RuneError
  else if r ≤ 0xFFFF then encode3 r
  else [byte (0xF0 + r / 262144), byte (0x80 + r / 4096 % 64),
        byte (0x80 + r / 64 % 64), byte (0x80 + r % 64)]

/-- A continuation byte, `0x80 ≤ b ≤ 0xBF`. -/
def isCont (b : Byte) : Bool := 0x80 ≤ b.val && b.val ≤ 0xBF

/-- The table `acceptRanges` selected by `first[s0]`: the bounds allowed for the
second byte after lead byte `s0`. -/
def acceptLo (s0 : Byte) : Nat :=
  if s0.val = 0xE0 then 0xA0 else if s0.val = 0xF0 then 0x90 else 0x80

/-- Upper bound of the accept range for the second byte after lead byte `s0`. -/
def acceptHi (s0 : Byte) : Nat :=
  if s0.val = 0xED then 0x9F else if s0.val = 0xF4 then 0x8F else 0xBF

/-- The function `utf8.DecodeRuneInString` (`utf8.DecodeRune`): the first rune of
`s` and its width in bytes; `(RuneError, 0)` on the empty string and
`(RuneError, 1)` on an invalid or truncated encoding. -/
def decodeRune (s : List Byte) : Nat × Nat :=
  match s with
  | [] => (RuneError, 0)
  | s0 :: t =>
    if s0.val < 0x80 then (s0.val, 1)
    else if s0.val < 0xC2 ∨ 0xF4 < s0.val then (RuneError, 1)
    else
      match t with
      | [] => (RuneError, 1)
      | s1 :: t1 =>
        if s0.val < 0xE0 then
          if s1.val < 0x80 ∨ 0xBF < s1.val then (RuneError, 1)
          else (s0.val % 32 * 64 + s1.val % 64, 2)
        else
          match t1 with
          | [] => (RuneError, 1)
          | s2 :: t2 =>
            if s1.val < acceptLo s0 ∨ acceptHi s0 < s1.val then (RuneError, 1)
            else if !isCont s2 then (RuneError, 1)
            else if s0.val < 0xF0 then
              (s0.val % 16 * 4096 + s1.val % 64 * 64 + s2.val % 64, 3)
            else
              match t2 with
              | [] => (RuneError, 1)
              | s3 :: _ =>
                if !isCont s3 then (RuneError, 1)
                else (s0.val % 8 * 262144 + s1.val % 64 * 4096 + s2.val % 64 * 64
                        + s3.val % 64, 4)

/-- A Go string literal: the UTF-8 bytes of the text. -/
def lit (s : String) : Str := s.toList.flatMap (fun c => encodeRune c.toNat)

/-! ## Maps and slices -/

/-- An allocated `map[string]struct{}`: its keys in iteration order. -/
structure GoMap where
  /-- The keys, in the order `range` visits them. -/
  keys : List Str
  /-- A map holds a key at most once. -/
  nodup : keys.Nodup

/-- The type `Set`, `map[string]struct{}`: nil or an allocated map. -/
inductive Set where
  /-- The nil map. -/
  | nil : Set
  /-- An allocated map. -/
  | alloc (m : GoMap) : Set

/-- The expression `make(Set)`: a fresh map without keys. -/
def GoMap.make : GoMap := ⟨[], List.nodup_nil⟩

/-- The statement `m[s] = struct{}{}`: the key is added when absent. -/
def GoMap.store (m : GoMap) (s : Str) : GoMap :=
  if h : s ∈ m.keys then m
  else ⟨m.keys ++ [s], by
    have hd : List.Disjoint m.keys [s] := by
      intro x hx hs
      rw [List.mem_singleton] at hs
      exact h (hs ▸ hx)
    exact List.Nodup.append m.nodup (List.nodup_singleton s) hd⟩

/-- The statement `delete(m, s)`. -/
def GoMap.delete (m : GoMap) (s : Str) : GoMap :=
  ⟨m.keys.erase s, m.nodup.erase s⟩

/-- The keys a `for s := range set` loop visits; none for the nil map. -/
def Set.range : Set → List Str
  | .nil => []
  | .alloc m => m.keys

/-- The function `sort.Strings`: the strings in ascending order. -/
def sortStrings (values : List Str) : List Str := List.insertionSort strLE values

/-- The function `strings.Join`. -/
def stringsJoin (elems : Option (List Str)) (sep : Str) : Str :=
  match elems with
  | none => []
  | some l => List.intercalate sep l

/-- The elements of a slice; the nil slice has none. -/
def elems (s : Option (List Str)) : List Str := s.getD []

/-! ## The package -/

/-- The function `Add`: adds the values in `v` to the set and returns the set; a
nil set is replaced by a new one. -/
def Add (set : Set) (v : List Str) : Set :=
  let m := match set with
    | .nil => GoMap.make
    | .alloc m => m
  .alloc (v.foldl GoMap.store m)

/-- The function `New`. -/
def New (v : List Str) : Set := Add .nil v

/-- The method `(*Set).Add`: the first component is the set the handle holds
after the call, the second the value returned. -/
def Set.Add (set : Set) (v : List Str) : Set × Set :=
  let m := match set with
    | .nil => GoMap.make
    | .alloc m => m
  let m := v.foldl GoMap.store m
  (.alloc m, .alloc m)

/-- The method `Set.Remove`. -/
def Set.Remove (set : Set) (v : List Str) : Set :=
  match set with
  | .nil => .nil
  | .alloc m => .alloc (v.foldl GoMap.delete m)

/-- The method `Set.Len`, `len(set)`. -/
def Set.Len : Set → Nat
  | .nil => 0
  | .alloc m => m.keys.length

/-- The method `Set.Contains`. -/
def Set.Contains (set : Set) (s : Str) : Bool :=
  match set with
  | .nil => false
  | .alloc m => decide (s ∈ m.keys)

/-- The method `Set.Equal`. -/
def Set.Equal (set other : Set) : Bool :=
  if set.Len ≠ other.Len then false
  else set.range.all (fun s => other.Contains s)

/-- The method `Set.Values`. -/
def Set.Values (set : Set) : Option (List Str) :=
  if set.Len = 0 then none
  else
    let values := set.range.foldl (fun values s => values ++ [s]) []
    let values := if values.length > 1 then sortStrings values else values
    some values

/-- The method `Set.Join`. -/
def Set.Join (set : Set) (sep : Str) : Str :=
  stringsJoin set.Values sep


/-! ## JSON (package `encoding/json`), for `[]string`

Bytes are written by their code: 0x22 is the double quote, 0x5C the backslash,
0x2F the slash, 0x27 the single quote, 0x5B and 0x5D the square brackets, 0x7B and
0x7D the braces, 0x2C the comma, 0x20 the space, 0x26, 0x3C and 0x3E the
ampersand and the angle brackets, 0x30 to 0x39 the digits, 0x61 to 0x66 the
letters a to f, 0x6E, 0x72, 0x74, 0x75, 0x76 and 0x78 the letters n, r, t, u, v
and x, and 0x55 the capital U. -/

/-- The table `hex`, `"0123456789abcdef"`, at index `n`. -/
def hexDigit (n : Nat) : Byte := if n < 10 then byte (0x30 + n) else byte (0x57 + n)

/-- The table `htmlSafeSet`: the ASCII bytes `json.Marshal` copies unchanged, all
from the space on except `"`, `&`, `<`, `>` and `\`. -/
def htmlSafe (b : Byte) : Bool :=
  0x20 ≤ b.val && b.val < 0x80 && b.val != 0x22 && b.val != 0x26 && b.val != 0x3C
    && b.val != 0x3E && b.val != 0x5C

/-- The escape `appendString` writes for an ASCII byte outside `htmlSafeSet`. -/
def escapeByte (b : Byte) : List Byte :=
  if b.val = 0x5C ∨ b.val = 0x22 then [0x5C, b]
  else if b.val = 0x08 then [0x5C, 0x62]
  else if b.val = 0x0C then [0x5C, 0x66]
  else if b.val = 0x0A then [0x5C, 0x6E]
  else if b.val = 0x0D then [0x5C, 0x72]
  else if b.val = 0x09 then [0x5C, 0x74]
  else [0x5C, 0x75, 0x30, 0x30, hexDigit (b.val / 16), hexDigit (b.val % 16)]

/-- One round of the loop of `appendString` (encoding/json, `escapeHTML` set) at
byte `b`, `rest` being the string after it: the bytes written for the character
at `b` and the string after that character.  (The source hands at most four bytes
to `utf8.DecodeRuneInString`, which looks at no more.)  A byte that is not valid
UTF-8 is written as U+FFFD itself, the three bytes EF BF BD; older releases of the
package wrote the six-character escape for U+FFFD in its place, and both texts
decode to U+FFFD. -/
def appendStringStep (b : Byte) (rest : List Byte) : List Byte × List Byte :=
  if b.val < 0x80 then
    (if htmlSafe b then [b] else escapeByte b, rest)
  else
    let c := (decodeRune (b :: rest)).1
    let size := (decodeRune (b :: rest)).2
    if c = RuneError ∧ size = 1 then
      ([0xEF, 0xBF, 0xBD], rest)
    else if c = 0x2028 ∨ c = 0x2029 then
      ([0x5C, 0x75, 0x32, 0x30, 0x32, hexDigit (c % 16)], (b :: rest).drop size)
    else
      ((b :: rest).take size, (b :: rest).drop size)

/-- The loop of `appendString` over what is left of the string.  Every round
consumes a byte or more, so `src.length` rounds are enough. -/
def appendStringLoop : Nat → List Byte → List Byte
  | _, [] => []
  | 0, _ :: _ => []
  | n + 1, b :: rest =>
    (appendStringStep b rest).1 ++ appendStringLoop n (appendStringStep b rest).2

/-- The function `appendString`: the JSON string literal for `src`. -/
def appendString (src : Str) : List Byte :=
  [0x22] ++ appendStringLoop src.length src ++ [0x22]

/-- An error of `encoding/json`. -/
inductive JSONError where
  /-- The input is not JSON (`*json.SyntaxError`) or does not fit the Go type
  (`*json.UnmarshalTypeError`). -/
  | invalid : JSONError
  deriving DecidableEq, Repr

deriving instance DecidableEq for Except

/-- The function `json.Marshal` on a `[]string`: `null` for the nil slice, else the
array of the string literals; it has no error for this type. -/
def jsonMarshal (strs : Option (List Str)) : Except JSONError (List Byte) :=
  match strs with
  | none => .ok (lit "null")
  | some l => .ok ([0x5B] ++ List.intercalate [0x2C] (l.map appendString) ++ [0x5D])

/-- White space between JSON tokens (`isSpace` of the scanner). -/
def isSpace (c : Byte) : Bool :=
  c.val = 0x20 || c.val = 0x09 || c.val = 0x0D || c.val = 0x0A

/-- The input after leading white space. -/
def skipSpace : List Byte → List Byte
  | [] => []
  | c :: t => if isSpace c then skipSpace t else c :: t

/-- The value of a hexadecimal digit, as read by `getu4`. -/
def hexVal (c : Byte) : Option Nat :=
  if 0x30 ≤ c.val ∧ c.val ≤ 0x39 then some (c.val - 0x30)
  else if 0x61 ≤ c.val ∧ c.val ≤ 0x66 then some (c.val - 0x61 + 10)
  else if 0x41 ≤ c.val ∧ c.val ≤ 0x46 then some (c.val - 0x41 + 10)
  else none

/-- The function `getu4`: the rune of a leading `\uXXXX`, if `s` starts with one
(the source returns -1 otherwise). -/
def getu4 (s : List Byte) : Option Nat :=
  match s with
  | b :: u :: h1 :: h2 :: h3 :: h4 :: _ =>
    if b.val = 0x5C ∧ u.val = 0x75 then
      match hexVal h1, hexVal h2, hexVal h3, hexVal h4 with
      | some d1, some d2, some d3, some d4 => some (((d1 * 16 + d2) * 16 + d3) * 16 + d4)
      | _, _, _, _ => none
    else none
  | _ => none

/-- The function `utf16.DecodeRune` on two runes; `r2` absent stands for the -1 of
`getu4`. -/
def utf16DecodeRune (r1 : Nat) (r2 : Option Nat) : Nat :=
  match r2 with
  | some r2 =>
    if 0xD800 ≤ r1 ∧ r1 < 0xDC00 ∧ 0xDC00 ≤ r2 ∧ r2 < 0xE000 then
      (r1 - 0xD800) * 1024 + (r2 - 0xDC00) + 0x10000
    else RuneError
  | none => RuneError

/-- The states of the scanner inside a string literal: `stateInString`,
`stateInStringEsc`, and `stateInStringEscU` to `stateInStringEscU123` by the number
of hexadecimal digits still to come. -/
inductive StrState where
  /-- After the opening quote or a complete character. -/
  | inString : StrState
  /-- After a backslash. -/
  | esc : StrState
  /-- After a backslash and `u`, with `k + 1` hexadecimal digits to come. -/
  | escU (k : Nat) : StrState

/-- The scanner over a string literal, from the byte after the opening quote:
the number of bytes before the closing quote, or nothing when the literal is not
valid JSON. -/
def scanString : StrState → List Byte → Option Nat
  | _, [] => none
  | .inString, c :: t =>
    if c.val = 0x22 then some 0
    else if c.val = 0x5C then (scanString .esc t).map (· + 1)
    else if c.val < 0x20 then none
    else (scanString .inString t).map (· + 1)
  | .esc, c :: t =>
    if c.val = 0x62 ∨ c.val = 0x66 ∨ c.val = 0x6E ∨ c.val = 0x72 ∨ c.val = 0x74
        ∨ c.val = 0x5C ∨ c.val = 0x2F ∨ c.val = 0x22 then
      (scanString .inString t).map (· + 1)
    else if c.val = 0x75 then (scanString (.escU 3) t).map (· + 1)
    else none
  | .escU k, c :: t =>
    if (hexVal c).isSome then
      (scanString (match k with
        | 0 => .inString
        | k + 1 => .escU k) t).map (· + 1)
    else none

/-- One round of the second loop of `unquoteBytes` at byte `c`, `t` being the
input after it: the bytes written and the input left, or nothing when the source
gives up (`ok` false).  An escape is replaced by what it stands for and any other
character is coerced to valid UTF-8. -/
def unquoteStep (c : Byte) (t : List Byte) : Option (List Byte × List Byte) :=
  if c.val = 0x5C then
    match t with
    | [] => none
    | e :: t1 =>
      if e.val = 0x22 ∨ e.val = 0x5C ∨ e.val = 0x2F ∨ e.val = 0x27 then some ([e], t1)
      else if e.val = 0x62 then some ([0x08], t1)
      else if e.val = 0x66 then some ([0x0C], t1)
      else if e.val = 0x6E then some ([0x0A], t1)
      else if e.val = 0x72 then some ([0x0D], t1)
      else if e.val = 0x74 then some ([0x09], t1)
      else if e.val = 0x75 then
        match getu4 (c :: t) with
        | none => none
        | some rr =>
          let t6 := t.drop 5
          if 0xD800 ≤ rr ∧ rr < 0xE000 then
            let dec := utf16DecodeRune rr (getu4 t6)
            if dec ≠ RuneError then some (encodeRune dec, t6.drop 6)
            else some (encodeRune RuneError, t6)
          else some (encodeRune rr, t6)
      else none
  else if c.val = 0x22 ∨ c.val < 0x20 then none
  else if c.val < 0x80 then some ([c], t)
  else
    some (encodeRune (decodeRune (c :: t)).1, (c :: t).drop (decodeRune (c :: t)).2)

/-- The second loop of `unquoteBytes`, on the bytes between the quotes of a
literal.  (The first loop of the source returns the input itself when it has no
escape, quote, control byte or invalid UTF-8, which is what this loop computes on
such input.)  Every round consumes a byte or more. -/
def unquoteLoop : Nat → List Byte → Option (List Byte)
  | _, [] => some []
  | 0, _ :: _ => none
  | n + 1, c :: t =>
    match unquoteStep c t with
    | none => none
    | some (out, rest) => (unquoteLoop n rest).map (out ++ ·)

/-- The function `unquote` on the bytes between the quotes of a literal. -/
def unquote (s : List Byte) : Option Str := unquoteLoop s.length s

/-- The bytes of `data` after the literal `p`, when `data` starts with it. -/
def consume (p data : List Byte) : Option (List Byte) :=
  if p.isPrefixOf data then some (data.drop p.length) else none

/-- One element of an array decoded into a `string`: a string literal gives its
value, `null` leaves the zero value `""`; anything else is an error, a
`SyntaxError` when it is not JSON and an `UnmarshalTypeError` when it is JSON of
another type.  The result is the string and the input after the element. -/
def decodeElem (data : List Byte) : Option (Str × List Byte) :=
  match data with
  | [] => none
  | c :: t =>
    if c.val = 0x22 then
      match scanString .inString t with
      | none => none
      | some k =>
        match unquote (t.take k) with
        | none => none
        | some s => some (s, t.drop (k + 1))
    else
      match consume (lit "null") data with
      | some rest => some ([], rest)
      | none => none

/-- The elements of an array after the first has been found to exist, up to the
closing bracket: the strings and the input after the bracket.  Every element
consumes a byte or more. -/
def decodeElems : Nat → List Byte → Option (List Str × List Byte)
  | 0, _ => none
  | n + 1, data =>
    match decodeElem data with
    | none => none
    | some (s, rest) =>
      match skipSpace rest with
      | [] => none
      | c :: rest1 =>
        if c.val = 0x2C then
          match decodeElems n (skipSpace rest1) with
          | none => none
          | some (l, rest2) => some (s :: l, rest2)
        else if c.val = 0x5D then some ([s], rest1)
        else none

/-- The function `json.Unmarshal` into a `[]string` variable that is nil.  The call
has no error exactly when the input, white space aside, is `null`, which leaves
the variable nil, or an array whose elements are string literals or `null`, which
sets it to the non-nil slice of the decoded strings.  Every other input is an
error: a `SyntaxError` when it is not well-formed JSON, an `UnmarshalTypeError`
when it is JSON of another shape; the two are not told apart here and both are
reported as `invalid`. -/
def jsonUnmarshal (data : List Byte) : Except JSONError (Option (List Str)) :=
  match skipSpace data with
  | [] => .error .invalid
  | c :: t =>
    if c.val = 0x5B then
      match skipSpace t with
      | [] => .error .invalid
      | d :: t1 =>
        if d.val = 0x5D then
          if skipSpace t1 = [] then .ok (some []) else .error .invalid
        else
          match decodeElems (d :: t1).length (d :: t1) with
          | none => .error .invalid
          | some (l, rest) =>
            if skipSpace rest = [] then .ok (some l) else .error .invalid
    else
      match consume (lit "null") (c :: t) with
      | some rest => if skipSpace rest = [] then .ok none else .error .invalid
      | none => .error .invalid

/-! ## Formatting (packages `fmt`, `strconv`, `strings`) -/

/-- The function `strconv.IsPrint`.  Runes up to U+00FF are decided as in the
source; for the others the source searches its Unicode tables, which are the
parameter `table`. -/
def isPrint (table : Nat → Bool) (r : Nat) : Bool :=
  if r ≤ 0xFF then
    if 0x20 ≤ r ∧ r ≤ 0x7E then true
    else if 0xA1 ≤ r then r != 0xAD
    else false
  else table r

/-- The digits `lowerhex[r>>s&0xF]` for `s` from `4*(k-1)` down to 0. -/
def hexDigits : Nat → Nat → List Byte
  | 0, _ => []
  | k + 1, r => hexDigit (r / 16 ^ k % 16) :: hexDigits k r

/-- The function `appendEscapedRune` of `strconv` as `Quote` calls it (quote `"`,
neither ASCII-only nor graphic-only). -/
def appendEscapedRune (table : Nat → Bool) (r : Nat) : List Byte :=
  if r = 0x22 ∨ r = 0x5C then [0x5C, byte r]
  else if isPrint table r then encodeRune r
  else if r = 0x07 then [0x5C, 0x61]
  else if r = 0x08 then [0x5C, 0x62]
  else if r = 0x0C then [0x5C, 0x66]
  else if r = 0x0A then [0x5C, 0x6E]
  else if r = 0x0D then [0x5C, 0x72]
  else if r = 0x09 then [0x5C, 0x74]
  else if r = 0x0B then [0x5C, 0x76]
  else if r < 0x20 ∨ r = 0x7F then [0x5C, 0x78, hexDigit (r / 16 % 16), hexDigit (r % 16)]
  else if 0x10FFFF < r ∨ (0xD800 ≤ r ∧ r ≤ 0xDFFF) then [0x5C, 0x75] ++ hexDigits 4 RuneError
  else if r < 0x10000 then [0x5C, 0x75] ++ hexDigits 4 r
  else [0x5C, 0x55] ++ hexDigits 8 r

/-- The loop of `appendQuotedWith` over what is left of the string.  Every round
consumes a byte or more. -/
def quoteLoop (table : Nat → Bool) : Nat → List Byte → List Byte
  | _, [] => []
  | 0, _ :: _ => []
  | n + 1, b :: rest =>
    let r := if b.val < 0x80 then b.val else (decodeRune (b :: rest)).1
    let width := if b.val < 0x80 then 1 else (decodeRune (b :: rest)).2
    if width = 1 ∧ r = RuneError then
      [0x5C, 0x78, hexDigit (b.val / 16), hexDigit (b.val % 16)] ++ quoteLoop table n rest
    else
      appendEscapedRune table r ++ quoteLoop table n ((b :: rest).drop width)

/-- The function `strconv.Quote`: a double-quoted Go string literal for `s`. -/
def strconvQuote (table : Nat → Bool) (s : Str) : Str :=
  [0x22] ++ quoteLoop table s.length s ++ [0x22]

/-- The call `fmt.Sprintf("%v", values)` on a `[]string`. -/
def sprintfV (values : Option (List Str)) : Str :=
  [0x5B] ++ List.intercalate [0x20] (elems values) ++ [0x5D]

/-- The call `fmt.Sprintf("%#v", values)` on a `[]string`: the type, then `(nil)`
for the nil slice and the quoted elements in braces otherwise. -/
def sprintfSharpV (table : Nat → Bool) (values : Option (List Str)) : Str :=
  lit "[]string" ++
    match values with
    | none => lit "(nil)"
    | some l => [0x7B] ++ List.intercalate (lit ", ") (l.map (strconvQuote table)) ++ [0x7D]

/-- The function `strings.TrimPrefix`. -/
def stringsTrimPrefix (s p : Str) : Str :=
  if p.isPrefixOf s then s.drop p.length else s

/-! ## The package, serialisation and formatting -/

/-- The method `Set.MarshalJSON`. -/
def Set.MarshalJSON (set : Set) : Except JSONError (List Byte) :=
  let strs : Option (List Str) :=
    match set with
    | .nil => none
    | .alloc _ => set.Values
  jsonMarshal strs

/-- The method `(*Set).UnmarshalJSON`: the set the handle holds after the call and
the error returned. -/
def Set.UnmarshalJSON (set : Set) (data : List Byte) : Set × Option JSONError :=
  match jsonUnmarshal data with
  | .error err => (set, some err)
  | .ok strs =>
    match strs with
    | none => (.nil, none)
    | some l => (New l, none)

/-- The method `Set.String`. -/
def Set.String (set : Set) : Str := sprintfV set.Values

/-- The method `Set.GoString`. -/
def Set.GoString (table : Nat → Bool) (set : Set) : Str :=
  let s := sprintfSharpV table set.Values
  let s := stringsTrimPrefix s (lit "[]string")
  lit "stringset.Set" ++ s

/-- The function `utf8.ValidString`: no position of `s` decodes to an encoding
error.  Every round consumes a byte or more. -/
def validStringLoop : Nat → List Byte → Bool
  | _, [] => true
  | 0, _ :: _ => false
  | n + 1, b :: rest =>
    if b.val < 0x80 then validStringLoop n rest
    else if (decodeRune (b :: rest)).2 = 1 then false
    else validStringLoop n ((b :: rest).drop (decodeRune (b :: rest)).2)

/-- The function `utf8.ValidString`. -/
def validString (s : Str) : Bool := validStringLoop s.length s

/-! ## Notions used in the proofs -/

/-- A piece of a string literal: the scanner passes over `ch`, and a round of
`unquote` turns it into `out`. -/
def Piece (ch out : List Byte) : Prop :=
  (∀ t, scanString .inString (ch ++ t) = (scanString .inString t).map (· + ch.length)) ∧
  ∃ c cs, ch = c :: cs ∧ ∀ t, unquoteStep c (cs ++ t) = some (out, t)

/-- The text between the brackets of the array `json.Marshal` writes for `l`. -/
def arrayBody (l : List Str) : List Byte := List.intercalate [0x2C] (l.map appendString)

/-- The strings of `l` concatenated with `sep` between consecutive ones, without a
separator before the first or after the last: the result the specification gives
for `Join`. -/
def joinWith (sep : Str) : List Str → Str
  | [] => []
  | [a] => a
  | a :: b :: l => a ++ sep ++ joinWith sep (b :: l)

/-- A string of printable ASCII (space to tilde) without `"` and `\`. -/
def plainASCII (m : Str) : Bool :=
  m.all (fun b => 0x20 ≤ b.val && b.val ≤ 0x7E && b.val != 0x22 && b.val != 0x5C)

/-! ## The inputs `json.Unmarshal` takes for a `[]string`, as a grammar

The grammar of RFC 8259 restricted to the values that fit a `[]string`: `null`,
and arrays whose elements are string literals or `null`. -/

/-- A run of JSON white space: spaces, tabs, carriage returns and line feeds. -/
def IsWs (w : List Byte) : Prop :=
  ∀ c ∈ w, c.val = 0x20 ∨ c.val = 0x09 ∨ c.val = 0x0D ∨ c.val = 0x0A

/-- A hexadecimal digit, in either case. -/
def IsHex (c : Byte) : Prop :=
  (0x30 ≤ c.val ∧ c.val ≤ 0x39) ∨ (0x61 ≤ c.val ∧ c.val ≤ 0x66) ∨
    (0x41 ≤ c.val ∧ c.val ≤ 0x46)

/-- The text between the quotes of a JSON string literal: bytes from 0x20 on
other than the quote and the backslash, the two-byte escapes, and `\u` with four
hexadecimal digits. -/
inductive StrChars : List Byte → Prop
  /-- The empty text. -/
  | nil : StrChars []
  /-- An unescaped byte. -/
  | plain (c : Byte) (t : List Byte) :
      0x20 ≤ c.val → c.val ≠ 0x22 → c.val ≠ 0x5C → StrChars t → StrChars (c :: t)
  /-- A backslash and one of `"`, `\`, `/`, `b`, `f`, `n`, `r`, `t`. -/
  | escape (e : Byte) (t : List Byte) :
      (e.val = 0x22 ∨ e.val = 0x5C ∨ e.val = 0x2F ∨ e.val = 0x62 ∨ e.val = 0x66 ∨
        e.val = 0x6E ∨ e.val = 0x72 ∨ e.val = 0x74) →
      StrChars t → StrChars (0x5C :: e :: t)
  /-- A backslash, `u` and four hexadecimal digits. -/
  | unicode (h1 h2 h3 h4 : Byte) (t : List Byte) :
      IsHex h1 → IsHex h2 → IsHex h3 → IsHex h4 → StrChars t →
      StrChars (0x5C :: 0x75 :: h1 :: h2 :: h3 :: h4 :: t)

/-- An array element that fits a `string`: a string literal or `null`. -/
inductive IsElem : List Byte → Prop
  /-- A string literal. -/
  | string (body : List Byte) : StrChars body → IsElem (0x22 :: (body ++ [0x22]))
  /-- The literal `null`. -/
  | null : IsElem (lit "null")

/-- The text between `[` and `]` of a non-empty array, after the white space that
follows `[`: elements separated by commas, with white space allowed after every
element and after every comma. -/
inductive IsElems : List Byte → Prop
  /-- The last element. -/
  | last (e w : List Byte) : IsElem e → IsWs w → IsElems (e ++ w)
  /-- An element, a comma, and more elements. -/
  | more (e w1 w2 rest : List Byte) :
      IsElem e → IsWs w1 → IsWs w2 → IsElems rest → IsElems (e ++ (w1 ++ 0x2C :: (w2 ++ rest)))

/-- The inputs that fit a `[]string`: `null`, the empty array, or an array of
string literals and `null`s, with white space allowed around every token. -/
inductive Accepted : List Byte → Prop
  /-- The literal `null`. -/
  | null (w1 w2 : List Byte) : IsWs w1 → IsWs w2 → Accepted (w1 ++ (lit "null" ++ w2))
  /-- The empty array. -/
  | empty (w1 w2 w3 : List Byte) :
      IsWs w1 → IsWs w2 → IsWs w3 → Accepted (w1 ++ 0x5B :: (w2 ++ 0x5D :: w3))
  /-- An array with elements. -/
  | array (w1 w2 body w3 : List Byte) :
      IsWs w1 → IsWs w2 → IsElems body → IsWs w3 →
      Accepted (w1 ++ 0x5B :: (w2 ++ (body ++ 0x5D :: w3)))

/-! ## Notions used to state the serialised and formatted text -/

/-- A string between two double quotes. -/
def doubleQuoted (m : Str) : Str := [0x22] ++ m ++ [0x22]

/-- The loop of `printable` over what is left of the string, a character a round. -/
def printableLoop (table : Nat → Bool) : Nat → List Byte → Bool
  | _, [] => true
  | 0, _ :: _ => false
  | n + 1, b :: rest =>
    if b.val < 0x80 then
      0x20 ≤ b.val && b.val ≤ 0x7E && b.val != 0x22 && b.val != 0x5C
        && printableLoop table n rest
    else if (decodeRune (b :: rest)).2 = 1 then false
    else isPrint table (decodeRune (b :: rest)).1
      && printableLoop table n ((b :: rest).drop (decodeRune (b :: rest)).2)

/-- A string in valid UTF-8 whose characters are all printable (`strconv.IsPrint`)
and other than `"` and `\`: the strings a Go literal shows as they are. -/
def printable (table : Nat → Bool) (m : Str) : Bool := printableLoop table m.length m

/-- A string of bytes `json.Marshal` copies unchanged (`htmlSafeSet`). -/
def jsonSafe (m : Str) : Bool := m.all htmlSafe

/-- The text `text` is a JSON string literal for the string `m`: characters of the
grammar between two quotes, which `unquote` reads as `m`. -/
def IsLiteralOf (m : Str) (text : List Byte) : Prop :=
  ∃ body, text = 0x22 :: (body ++ [0x22]) ∧ StrChars body ∧ unquote body = some m

/-! ## Elementary facts about the map model -/

theorem Set.range_nodup (set : Set) : set.range.Nodup := by
  cases set with
  | nil => exact List.nodup_nil
  | alloc m => exact m.nodup

theorem Set.Len_eq_length (set : Set) : set.Len = set.range.length := by
  cases set <;> rfl

theorem Set.Contains_iff_mem (set : Set) (x : Str) : set.Contains x = true ↔ x ∈ set.range := by
  cases set <;> simp [Set.Contains, Set.range]

theorem Set.Equal_iff_perm (a b : Set) : a.Equal b = true ↔ a.range.Perm b.range := by
  unfold Set.Equal
  rw [Set.Len_eq_length, Set.Len_eq_length]
  constructor
  · intro h
    by_cases hl : a.range.length = b.range.length
    · simp only [hl, ne_eq, not_true_eq_false, if_false, List.all_eq_true,
        Set.Contains_iff_mem] at h
      exact (List.subperm_of_subset a.range_nodup h).perm_of_length_le (le_of_eq hl.symm)
    · simp [hl] at h
  · intro h
    have hl := h.length_eq
    simp only [hl, ne_eq, not_true_eq_false, if_false, List.all_eq_true, Set.Contains_iff_mem]
    intro x hx
    exact h.subset hx

theorem Set.perm_iff_contains (a b : Set) :
    a.range.Perm b.range ↔ ∀ x, a.Contains x = b.Contains x := by
  rw [List.perm_ext_iff_of_nodup a.range_nodup b.range_nodup]
  constructor
  · intro h x
    rw [Bool.eq_iff_iff, Set.Contains_iff_mem, Set.Contains_iff_mem]
    exact h x
  · intro h x
    rw [← Set.Contains_iff_mem, ← Set.Contains_iff_mem, h x]

/-- C1: `a.Equal(b)` is true exactly when `a` and `b` have the same members; the
comparison is case-sensitive, and the nil set equals the empty allocated set. -/
theorem Equal_iff_same_members :
    (∀ a b : Set, a.Equal b = true ↔ ∀ x : Str, a.Contains x = b.Contains x) ∧
    (New [lit "X"]).Equal (New [lit "x"]) = false ∧
    Set.nil.Equal (New []) = true := by
  refine ⟨fun a b => ?_, by decide, by decide⟩
  rw [Set.Equal_iff_perm, Set.perm_iff_contains]

/-! ## String order -/

theorem strLess_irrefl (a : Str) : strLess a a = false := by
  induction a with
  | nil => rfl
  | cons x xs ih => simp [strLess, ih]

theorem strLE_total (a b : Str) : strLE a b ∨ strLE b a := by
  unfold strLE
  induction a generalizing b with
  | nil => cases b <;> simp [strLess]
  | cons x xs ih =>
    cases b with
    | nil => simp [strLess]
    | cons y ys =>
      simp only [strLess]
      rcases Nat.lt_trichotomy x.val y.val with h | h | h
      · left
        simp [h, Nat.lt_asymm h]
      · rcases ih ys with h1 | h1
        · left
          simp [h, h1]
        · right
          simp [h, h1]
      · right
        simp [h, Nat.lt_asymm h]

theorem strLE_trans (a b c : Str) (hab : strLE a b) (hbc : strLE b c) : strLE a c := by
  unfold strLE at *
  induction a generalizing b c with
  | nil => cases c <;> simp [strLess]
  | cons x xs ih =>
    cases b with
    | nil => simp [strLess] at hab
    | cons y ys =>
      cases c with
      | nil => simp [strLess] at hbc
      | cons z zs =>
        simp only [strLess] at hab hbc ⊢
        by_cases h1 : y.val < x.val
        · simp [h1] at hab
        · by_cases h2 : z.val < y.val
          · simp [h2] at hbc
          · simp only [h1, h2, if_false] at hab hbc
            by_cases h3 : x.val < y.val
            · have h4 : x.val < z.val := by omega
              have h5 : ¬ z.val < x.val := by omega
              simp [h4, h5]
            · by_cases h6 : y.val < z.val
              · have h4 : x.val < z.val := by omega
                have h5 : ¬ z.val < x.val := by omega
                simp [h4, h5]
              · simp only [h3, h6, if_false] at hab hbc
                have h4 : ¬ x.val < z.val := by omega
                have h5 : ¬ z.val < x.val := by omega
                simp only [h4, h5, if_false]
                exact ih ys zs hab hbc

theorem strLE_antisymm (a b : Str) (hab : strLE a b) (hba : strLE b a) : a = b := by
  unfold strLE at *
  induction a generalizing b with
  | nil =>
    cases b with
    | nil => rfl
    | cons y ys => simp [strLess] at hba
  | cons x xs ih =>
    cases b with
    | nil => simp [strLess] at hab
    | cons y ys =>
      simp only [strLess] at hab hba
      by_cases h1 : y.val < x.val
      · simp [h1] at hab
      · by_cases h2 : x.val < y.val
        · simp [h2] at hba
        · simp only [h1, h2, if_false] at hab hba
          have hxy : x = y := Fin.ext (by omega)
          rw [hxy, ih ys hab hba]

theorem strLess_of_strLE_of_ne (a b : Str) (hab : strLE a b) (hne : a ≠ b) :
    strLess a b = true := by
  cases h : strLess a b with
  | true => rfl
  | false => exact absurd (strLE_antisymm a b hab h) hne

instance : IsTotal Str strLE := ⟨strLE_total⟩

instance : IsTrans Str strLE := ⟨strLE_trans⟩

instance : IsAntisymm Str strLE := ⟨strLE_antisymm⟩

/-! ## Sorting -/

theorem sortStrings_perm (l : List Str) : (sortStrings l).Perm l :=
  List.perm_insertionSort strLE l

theorem sortStrings_sorted (l : List Str) : (sortStrings l).Sorted strLE :=
  List.sorted_insertionSort strLE l

theorem sortStrings_strict (l : List Str) (hl : l.Nodup) :
    (sortStrings l).Pairwise (fun a b => strLess a b = true) := by
  have hs : (sortStrings l).Pairwise strLE := sortStrings_sorted l
  have hn : (sortStrings l).Pairwise (fun a b => a ≠ b) :=
    (sortStrings_perm l).nodup_iff.mpr hl
  exact (hs.and hn).imp (fun h => strLess_of_strLE_of_ne _ _ h.1 h.2)

theorem sortStrings_eq_of_perm (l₁ l₂ : List Str) (h : l₁.Perm l₂) :
    sortStrings l₁ = sortStrings l₂ :=
  List.eq_of_perm_of_sorted
    (((sortStrings_perm l₁).trans h).trans (sortStrings_perm l₂).symm)
    (sortStrings_sorted l₁) (sortStrings_sorted l₂)

theorem sortStrings_short (l : List Str) (h : ¬ l.length > 1) : sortStrings l = l := by
  match l, h with
  | [], _ => rfl
  | [a], _ => rfl
  | _ :: _ :: _, h => simp at h

/-! ## Values -/

theorem foldl_append_singleton (l acc : List Str) :
    l.foldl (fun values s => values ++ [s]) acc = acc ++ l := by
  induction l generalizing acc with
  | nil => simp
  | cons x xs ih => simp [ih]

theorem Set.Values_of_ne (set : Set) (h : set.Len ≠ 0) :
    set.Values = some (sortStrings set.range) := by
  unfold Set.Values
  simp only [h, if_false, foldl_append_singleton, List.nil_append]
  by_cases hl : set.range.length > 1
  · simp [hl]
  · simp [hl, sortStrings_short _ hl]

theorem Set.Values_of_eq (set : Set) (h : set.Len = 0) : set.Values = none := by
  simp [Set.Values, h]

theorem Set.elems_Values (set : Set) : elems set.Values = sortStrings set.range := by
  by_cases h : set.Len = 0
  · rw [Set.Values_of_eq set h]
    rw [Set.Len_eq_length] at h
    rw [List.length_eq_zero.mp h]
    rfl
  · rw [Set.Values_of_ne set h]
    rfl

theorem Set.Len_eq_zero_iff (set : Set) : set.Len = 0 ↔ ∀ x, set.Contains x = false := by
  rw [Set.Len_eq_length, List.length_eq_zero]
  constructor
  · intro h x
    cases hc : set.Contains x with
    | false => rfl
    | true =>
      rw [Set.Contains_iff_mem, h] at hc
      simp at hc
  · intro h
    apply List.eq_nil_iff_forall_not_mem.mpr
    intro x hx
    have := (Set.Contains_iff_mem set x).mpr hx
    rw [h x] at this
    exact Bool.false_ne_true this

/-- C3: the slice `Values` returns is strictly ascending in byte-wise order, hence
without duplicates, whatever the order of insertion. -/
theorem Values_strictly_sorted :
    (∀ set : Set, (elems set.Values).Pairwise (fun a b => strLess a b = true)) ∧
    (∀ set : Set, (elems set.Values).Chain' (fun a b => strLess a b = true)) ∧
    (∀ set : Set, (elems set.Values).Nodup) ∧
    (New [lit "2b", lit "1a", lit "3c"]).Values = some [lit "1a", lit "2b", lit "3c"] ∧
    (New [lit "3c", lit "2b", lit "1a"]).Values = some [lit "1a", lit "2b", lit "3c"] := by
  refine ⟨fun set => ?_, fun set => ?_, fun set => ?_, by decide, by decide⟩
  · rw [Set.elems_Values]
    exact sortStrings_strict _ set.range_nodup
  · rw [Set.elems_Values]
    exact List.Pairwise.chain' (sortStrings_strict _ set.range_nodup)
  · rw [Set.elems_Values]
    exact (sortStrings_perm _).nodup_iff.mpr set.range_nodup

/-- C4: `Values` holds exactly the members of the set, once each. -/
theorem Values_members :
    ∀ set : Set, (∀ x : Str, x ∈ elems set.Values ↔ set.Contains x = true) ∧
      (elems set.Values).length = set.Len := by
  intro set
  rw [Set.elems_Values]
  refine ⟨fun x => ?_, ?_⟩
  · rw [Set.Contains_iff_mem]
    exact (sortStrings_perm _).mem_iff
  · rw [Set.Len_eq_length]
    exact (sortStrings_perm _).length_eq

/-! ## Add and Remove -/

theorem GoMap.mem_store (m : GoMap) (s x : Str) :
    x ∈ (m.store s).keys ↔ x ∈ m.keys ∨ x = s := by
  unfold GoMap.store
  by_cases h : s ∈ m.keys
  · simp only [h, dif_pos]
    constructor
    · exact Or.inl
    · rintro (h1 | h1)
      · exact h1
      · exact h1 ▸ h
  · simp [h]

theorem GoMap.mem_foldl_store (v : List Str) (m : GoMap) (x : Str) :
    x ∈ (v.foldl GoMap.store m).keys ↔ x ∈ m.keys ∨ x ∈ v := by
  induction v generalizing m with
  | nil => simp
  | cons s t ih =>
    rw [List.foldl_cons, ih, GoMap.mem_store, List.mem_cons]
    tauto

theorem GoMap.mem_foldl_delete (v : List Str) (m : GoMap) (x : Str) :
    x ∈ (v.foldl GoMap.delete m).keys ↔ x ∈ m.keys ∧ x ∉ v := by
  induction v generalizing m with
  | nil => simp
  | cons s t ih =>
    rw [List.foldl_cons, ih, List.mem_cons]
    unfold GoMap.delete
    rw [m.nodup.mem_erase_iff]
    tauto

theorem Add_range (set : Set) (v : List Str) (x : Str) :
    x ∈ (Add set v).range ↔ x ∈ set.range ∨ x ∈ v := by
  cases set with
  | nil => simp [Add, Set.range, GoMap.mem_foldl_store, GoMap.make]
  | alloc m => simp [Add, Set.range, GoMap.mem_foldl_store]

theorem Add_contains (set : Set) (v : List Str) (x : Str) :
    (Add set v).Contains x = true ↔ (set.Contains x = true ∨ x ∈ v) := by
  rw [Set.Contains_iff_mem, Set.Contains_iff_mem, Add_range]

theorem Remove_contains (set : Set) (v : List Str) (x : Str) :
    (set.Remove v).Contains x = true ↔ (set.Contains x = true ∧ x ∉ v) := by
  rw [Set.Contains_iff_mem, Set.Contains_iff_mem]
  cases set with
  | nil => simp [Set.Remove, Set.range]
  | alloc m => simp [Set.Remove, Set.range, GoMap.mem_foldl_delete]

theorem Add_ne_nil (set : Set) (v : List Str) : Add set v ≠ Set.nil := by
  simp [Add]

theorem Len_eq_of_same_members (a b : Set) (h : ∀ x, a.Contains x = b.Contains x) :
    a.Len = b.Len := by
  rw [Set.Len_eq_length, Set.Len_eq_length]
  exact ((Set.perm_iff_contains a b).mpr h).length_eq

/-- C5: `New(v...).Len()` is the number of distinct strings in `v`. -/
theorem New_Len_distinct :
    (∀ v : List Str, (New v).Len = v.toFinset.card) ∧
    (New [lit "a", lit "b", lit "a"]).Len = 2 ∧ (New []).Len = 0 := by
  refine ⟨fun v => ?_, by decide, by decide⟩
  rw [Set.Len_eq_length, ← List.toFinset_card_of_nodup (New v).range_nodup]
  congr 1
  ext x
  rw [List.mem_toFinset, List.mem_toFinset]
  unfold New
  rw [Add_range]
  simp [Set.range]

/-- C6: the package-level `Add` returns a non-nil set whose members are those of
the argument set together with the values added; `New()` is non-nil and empty;
adding members only changes neither the membership nor the length. -/
theorem Add_members :
    (∀ (s : Set) (v : List Str), Add s v ≠ Set.nil ∧
      ∀ x : Str, (Add s v).Contains x = true ↔ (s.Contains x = true ∨ x ∈ v)) ∧
    (New [] ≠ Set.nil ∧ ∀ x : Str, (New []).Contains x = false) ∧
    (∀ (s : Set) (v : List Str), (∀ x ∈ v, s.Contains x = true) →
      (∀ x : Str, (Add s v).Contains x = s.Contains x) ∧ (Add s v).Len = s.Len) := by
  refine ⟨fun s v => ⟨Add_ne_nil s v, Add_contains s v⟩, ⟨Add_ne_nil _ _, fun x => ?_⟩,
    fun s v hv => ?_⟩
  · simp [New, Add, Set.Contains, GoMap.make]
  · have hc : ∀ x : Str, (Add s v).Contains x = s.Contains x := by
      intro x
      rw [Bool.eq_iff_iff, Add_contains]
      constructor
      · rintro (h | h)
        · exact h
        · exact hv x h
      · exact Or.inl
    exact ⟨hc, Len_eq_of_same_members _ _ hc⟩

/-- Witness of C6: adding "a" to the set of "a" and "b". -/
theorem Add_members_witness :
    (Add (New [lit "a", lit "b"]) [lit "a"]).Contains (lit "b")
        = (New [lit "a", lit "b"]).Contains (lit "b") ∧
      (Add (New [lit "a", lit "b"]) [lit "a"]).Len = (New [lit "a", lit "b"]).Len :=
  ⟨(Add_members.2.2 (New [lit "a", lit "b"]) [lit "a"] (by decide)).1 (lit "b"),
    (Add_members.2.2 (New [lit "a", lit "b"]) [lit "a"] (by decide)).2⟩

/-- C7: after `Remove` the members are those of the set that are not among the
values removed; removing non-members only leaves the membership as it was. -/
theorem Remove_members :
    (∀ (s : Set) (v : List Str) (x : Str),
      (s.Remove v).Contains x = true ↔ (s.Contains x = true ∧ x ∉ v)) ∧
    (∀ (s : Set) (v : List Str), (∀ x ∈ v, s.Contains x = false) →
      ∀ x : Str, (s.Remove v).Contains x = s.Contains x) := by
  refine ⟨Remove_contains, fun s v hv x => ?_⟩
  rw [Bool.eq_iff_iff, Remove_contains]
  constructor
  · exact fun h => h.1
  · intro h
    refine ⟨h, fun hx => ?_⟩
    rw [hv x hx] at h
    exact Bool.false_ne_true h

/-- Witness of C7: removing "Z" from the set of "A", "B" and "C". -/
theorem Remove_members_witness :
    ((New [lit "A", lit "B", lit "C"]).Remove [lit "Z"]).Contains (lit "A")
      = (New [lit "A", lit "B", lit "C"]).Contains (lit "A") :=
  Remove_members.2 (New [lit "A", lit "B", lit "C"]) [lit "Z"] (by decide) (lit "A")

/-- C8: `Remove` on the nil set returns nil, and every read operation on the
result gives what it gives on the nil set. -/
theorem Remove_nil :
    ∀ v : List Str, Set.nil.Remove v = Set.nil ∧
      (Set.nil.Remove v).Len = Set.nil.Len ∧ (Set.nil.Remove v).Len = 0 ∧
      (∀ x : Str, (Set.nil.Remove v).Contains x = Set.nil.Contains x) ∧
      (∀ other : Set, (Set.nil.Remove v).Equal other = Set.nil.Equal other) ∧
      (∀ other : Set, other.Equal (Set.nil.Remove v) = other.Equal Set.nil) ∧
      (Set.nil.Remove v).Values = Set.nil.Values ∧ (Set.nil.Remove v).Values = none ∧
      (∀ sep : Str, (Set.nil.Remove v).Join sep = Set.nil.Join sep) ∧
      (Set.nil.Remove v).String = Set.nil.String ∧
      (∀ table : Nat → Bool, (Set.nil.Remove v).GoString table = Set.nil.GoString table) ∧
      (Set.nil.Remove v).MarshalJSON = Set.nil.MarshalJSON := by
  intro v
  have h : Set.nil.Remove v = Set.nil := rfl
  rw [h]
  exact ⟨rfl, rfl, rfl, fun _ => rfl, fun _ => rfl, fun _ => rfl, rfl, rfl, fun _ => rfl, rfl,
    fun _ => rfl, rfl⟩

/-- C9: the method `Add` leaves in the handle the set the package-level `Add`
returns, a non-nil set, and returns that same set; from a nil handle, `Add("A")`
leaves a set of length 1. -/
theorem method_Add_eq_Add :
    (∀ (s : Set) (v : List Str),
      (s.Add v).1 = Add s v ∧ (s.Add v).2 = (s.Add v).1 ∧ (s.Add v).1 ≠ Set.nil ∧
      ∀ x : Str, (s.Add v).1.Contains x = (Add s v).Contains x) ∧
    (Set.nil.Add [lit "A"]).1.Len = 1 := by
  refine ⟨fun s v => ⟨rfl, rfl, ?_, fun _ => rfl⟩, by decide⟩
  simp [Set.Add]

/-- C10: `Values` is the nil slice exactly on the sets without members, nil or
allocated, and is never an allocated slice of length zero. -/
theorem Values_nil_iff_empty :
    (∀ s : Set, s.Values = none ↔ ∀ x : Str, s.Contains x = false) ∧
    (∀ s : Set, s.Values ≠ some []) ∧
    (∀ s : Set, (∃ x : Str, s.Contains x = true) ↔ ∃ l, s.Values = some l ∧ l ≠ []) ∧
    Set.nil.Values = none ∧ (New []).Values = none ∧
    ((New [lit "a"]).Remove [lit "a"]).Values = none := by
  have key : ∀ s : Set, s.Values = none ↔ s.Len = 0 := by
    intro s
    constructor
    · intro h
      by_contra hne
      rw [Set.Values_of_ne s hne] at h
      exact Option.noConfusion h
    · exact Set.Values_of_eq s
  have hne : ∀ s : Set, s.Values ≠ some [] := by
    intro s h
    by_cases hl : s.Len = 0
    · rw [Set.Values_of_eq s hl] at h
      exact Option.noConfusion h
    · rw [Set.Values_of_ne s hl] at h
      have hp := sortStrings_perm s.range
      rw [Option.some.inj h] at hp
      rw [Set.Len_eq_length, ← hp.length_eq] at hl
      exact hl rfl
  refine ⟨fun s => ?_, hne, fun s => ?_, by decide, by decide, by decide⟩
  · rw [key, Set.Len_eq_zero_iff]
  · constructor
    · rintro ⟨x, hx⟩
      have hl : s.Len ≠ 0 := by
        intro h0
        rw [(Set.Len_eq_zero_iff s).mp h0 x] at hx
        exact Bool.false_ne_true hx
      refine ⟨sortStrings s.range, Set.Values_of_ne s hl, fun h => ?_⟩
      exact hne s ((Set.Values_of_ne s hl).trans (congrArg some h))
    · rintro ⟨l, hl, _⟩
      by_contra hno
      have h0 : ∀ x, s.Contains x = false := by
        intro x
        cases hc : s.Contains x with
        | false => rfl
        | true => exact absurd ⟨x, hc⟩ hno
      rw [(key s).mpr ((Set.Len_eq_zero_iff s).mpr h0)] at hl
      exact Option.noConfusion hl

/-! ## UTF-8: a rune that decodes without error encodes to the bytes it came from -/

theorem byte_val (b : Byte) : byte b.val = b := by
  apply Fin.ext
  simp only [byte]
  omega

theorem byte_eq_of_val (n : Nat) (b : Byte) (h : n = b.val) : byte n = b := by
  subst h
  exact byte_val b

theorem decodeRune_valid (b : Byte) (rest : List Byte) (hb : 0x80 ≤ b.val)
    (h : (decodeRune (b :: rest)).2 ≠ 1) :
    ∃ chunk t, b :: rest = chunk ++ t ∧ chunk.length = (decodeRune (b :: rest)).2 ∧
      (∀ y ∈ chunk, 0x80 ≤ y.val) ∧
      encodeRune (decodeRune (b :: rest)).1 = chunk ∧
      (∀ t', decodeRune (chunk ++ t') = decodeRune (b :: rest)) ∧ chunk ≠ [] := by
  have hb0 : ¬ b.val < 0x80 := by omega
  by_cases hlead : b.val < 0xC2 ∨ 0xF4 < b.val
  · simp [decodeRune, hb0, hlead] at h
  cases rest with
  | nil => simp [decodeRune, hb0, hlead] at h
  | cons s1 t1 =>
    by_cases h2 : b.val < 0xE0
    · by_cases hc1 : s1.val < 0x80 ∨ 0xBF < s1.val
      · simp [decodeRune, hb0, hlead, h2, hc1] at h
      · refine ⟨[b, s1], t1, rfl, ?_, ?_, ?_, ?_, by simp⟩
        · simp [decodeRune, hb0, hlead, h2, hc1]
        · intro y hy
          simp only [List.mem_cons, List.mem_singleton, List.not_mem_nil, or_false] at hy
          rcases hy with rfl | rfl <;> omega
        · simp only [decodeRune, hb0, hlead, h2, hc1, if_false, if_true]
          have e1 : ¬ (b.val % 32 * 64 + s1.val % 64 ≤ 0x7F) := by omega
          have e2 : b.val % 32 * 64 + s1.val % 64 ≤ 0x7FF := by omega
          simp only [encodeRune, e1, e2, if_false, if_true]
          rw [byte_eq_of_val _ b (by omega), byte_eq_of_val _ s1 (by omega)]
        · intro t'
          simp [decodeRune, hb0, hlead, h2, hc1]
    · cases t1 with
      | nil => simp [decodeRune, hb0, hlead, h2] at h
      | cons s2 t2 =>
        by_cases hc1 : s1.val < acceptLo b ∨ acceptHi b < s1.val
        · simp [decodeRune, hb0, hlead, h2, hc1] at h
        by_cases hc2 : isCont s2 = true
        swap
        · simp [decodeRune, hb0, hlead, h2, hc1, hc2] at h
        have hs2 : 0x80 ≤ s2.val ∧ s2.val ≤ 0xBF := by
          simpa [isCont] using hc2
        have hs1 : 0x80 ≤ s1.val ∧ s1.val ≤ 0xBF ∧
            (b.val = 0xE0 → 0xA0 ≤ s1.val) ∧ (b.val = 0xED → s1.val ≤ 0x9F) ∧
            (b.val = 0xF0 → 0x90 ≤ s1.val) ∧ (b.val = 0xF4 → s1.val ≤ 0x8F) := by
          unfold acceptLo acceptHi at hc1
          split_ifs at hc1 <;> omega
        by_cases h3 : b.val < 0xF0
        · refine ⟨[b, s1, s2], t2, rfl, ?_, ?_, ?_, ?_, by simp⟩
          · simp [decodeRune, hb0, hlead, h2, hc1, hc2, h3]
          · intro y hy
            simp only [List.mem_cons, List.mem_singleton, List.not_mem_nil, or_false] at hy
            rcases hy with rfl | rfl | rfl <;> omega
          · simp only [decodeRune, hb0, hlead, h2, hc1, hc2, h3, if_false, if_true,
              Bool.not_true, Bool.false_eq_true]
            have e1 : ¬ (b.val % 16 * 4096 + s1.val % 64 * 64 + s2.val % 64 ≤ 0x7F) := by omega
            have e2 : ¬ (b.val % 16 * 4096 + s1.val % 64 * 64 + s2.val % 64 ≤ 0x7FF) := by omega
            have e3 : ¬ (0x10FFFF < b.val % 16 * 4096 + s1.val % 64 * 64 + s2.val % 64 ∨
                (0xD800 ≤ b.val % 16 * 4096 + s1.val % 64 * 64 + s2.val % 64 ∧
                  b.val % 16 * 4096 + s1.val % 64 * 64 + s2.val % 64 ≤ 0xDFFF)) := by omega
            have e4 : b.val % 16 * 4096 + s1.val % 64 * 64 + s2.val % 64 ≤ 0xFFFF := by omega
            simp only [encodeRune, encode3, e1, e2, e3, e4, if_false, if_true]
            rw [byte_eq_of_val _ b (by omega), byte_eq_of_val _ s1 (by omega),
              byte_eq_of_val _ s2 (by omega)]
          · intro t'
            simp [decodeRune, hb0, hlead, h2, hc1, hc2, h3]
        · cases t2 with
          | nil => simp [decodeRune, hb0, hlead, h2, hc1, hc2, h3] at h
          | cons s3 t3 =>
            by_cases hc3 : isCont s3 = true
            swap
            · simp [decodeRune, hb0, hlead, h2, hc1, hc2, h3, hc3] at h
            have hs3 : 0x80 ≤ s3.val ∧ s3.val ≤ 0xBF := by
              simpa [isCont] using hc3
            refine ⟨[b, s1, s2, s3], t3, rfl, ?_, ?_, ?_, ?_, by simp⟩
            · simp [decodeRune, hb0, hlead, h2, hc1, hc2, h3, hc3]
            · intro y hy
              simp only [List.mem_cons, List.mem_singleton, List.not_mem_nil, or_false] at hy
              rcases hy with rfl | rfl | rfl | rfl <;> omega
            · simp only [decodeRune, hb0, hlead, h2, hc1, hc2, h3, hc3, if_false, if_true,
                Bool.not_true, Bool.false_eq_true]
              have e1 : ¬ (b.val % 8 * 262144 + s1.val % 64 * 4096 + s2.val % 64 * 64
                  + s3.val % 64 ≤ 0x7F) := by omega
              have e2 : ¬ (b.val % 8 * 262144 + s1.val % 64 * 4096 + s2.val % 64 * 64
                  + s3.val % 64 ≤ 0x7FF) := by omega
              have e3 : ¬ (0x10FFFF < b.val % 8 * 262144 + s1.val % 64 * 4096 + s2.val % 64 * 64
                  + s3.val % 64 ∨
                  (0xD800 ≤ b.val % 8 * 262144 + s1.val % 64 * 4096 + s2.val % 64 * 64
                      + s3.val % 64 ∧
                    b.val % 8 * 262144 + s1.val % 64 * 4096 + s2.val % 64 * 64
                      + s3.val % 64 ≤ 0xDFFF)) := by omega
              have e4 : ¬ (b.val % 8 * 262144 + s1.val % 64 * 4096 + s2.val % 64 * 64
                  + s3.val % 64 ≤ 0xFFFF) := by omega
              simp only [encodeRune, e1, e2, e3, e4, if_false, if_true]
              rw [byte_eq_of_val _ b (by omega), byte_eq_of_val _ s1 (by omega),
                byte_eq_of_val _ s2 (by omega), byte_eq_of_val _ s3 (by omega)]
            · intro t'
              simp [decodeRune, hb0, hlead, h2, hc1, hc2, h3, hc3]

/-! ## JSON: the scanner and `unquote` on what `appendString` writes -/

theorem hexVal_hexDigit (n : Nat) (h : n < 16) : hexVal (hexDigit n) = some n := by
  have key : ∀ k : Fin 16, hexVal (hexDigit k.val) = some k.val := by decide
  exact key ⟨n, h⟩

theorem Piece.plain (c : Byte) (h1 : 0x20 ≤ c.val) (h2 : c.val < 0x80) (h3 : c.val ≠ 0x22)
    (h4 : c.val ≠ 0x5C) : Piece [c] [c] := by
  have h5 : ¬ c.val < 0x20 := by omega
  refine ⟨fun t => ?_, c, [], rfl, fun t => ?_⟩
  · simp [scanString, h3, h4, h5]
  · simp [unquoteStep, h3, h4, h5, h2]

theorem scanString_high (chunk : List Byte) (h : ∀ y ∈ chunk, 0x80 ≤ y.val) (t : List Byte) :
    scanString .inString (chunk ++ t) = (scanString .inString t).map (· + chunk.length) := by
  induction chunk with
  | nil => simp
  | cons c cs ih =>
    have hc := h c (List.mem_cons_self _ _)
    have h3 : c.val ≠ 0x22 := by omega
    have h4 : c.val ≠ 0x5C := by omega
    have h5 : ¬ c.val < 0x20 := by omega
    rw [List.cons_append]
    simp only [scanString, h3, h4, h5, if_false]
    rw [ih (fun y hy => h y (List.mem_cons_of_mem _ hy))]
    simp [Option.map_map, Function.comp_def, Nat.add_assoc, Nat.add_comm 1]

theorem Piece.rune (b : Byte) (rest : List Byte) (hb : 0x80 ≤ b.val)
    (h : (decodeRune (b :: rest)).2 ≠ 1) :
    ∃ chunk t, b :: rest = chunk ++ t ∧ chunk.length = (decodeRune (b :: rest)).2 ∧
      encodeRune (decodeRune (b :: rest)).1 = chunk ∧ chunk ≠ [] ∧ Piece chunk chunk := by
  obtain ⟨chunk, t, hsplit, hlen, hhigh, henc, hdec, hne⟩ := decodeRune_valid b rest hb h
  refine ⟨chunk, t, hsplit, hlen, henc, hne, scanString_high chunk hhigh, ?_⟩
  cases chunk with
  | nil => exact absurd rfl hne
  | cons c cs =>
    have hcb : c = b := by
      simp at hsplit
      exact hsplit.1.symm
    subst hcb
    refine ⟨c, cs, rfl, fun t' => ?_⟩
    have h3 : c.val ≠ 0x22 := by omega
    have h4 : c.val ≠ 0x5C := by omega
    have h5 : ¬ c.val < 0x20 := by omega
    have h6 : ¬ c.val < 0x80 := by omega
    have hd := hdec t'
    rw [List.cons_append] at hd
    simp only [unquoteStep, h3, h4, h5, h6, if_false, false_or, hd]
    rw [henc, ← hlen, ← List.cons_append, List.drop_left]

theorem Piece.escape (b : Byte) (h2 : b.val < 0x80) (hs : htmlSafe b = false) :
    Piece (escapeByte b) [b] := by
  have hcases : b.val = 0x5C ∨ b.val = 0x22 ∨ b.val = 0x08 ∨ b.val = 0x0C ∨ b.val = 0x0A ∨
      b.val = 0x0D ∨ b.val = 0x09 ∨
      ((b.val < 0x20 ∨ b.val = 0x26 ∨ b.val = 0x3C ∨ b.val = 0x3E) ∧ b.val ≠ 0x08 ∧
        b.val ≠ 0x0C ∧ b.val ≠ 0x0A ∧ b.val ≠ 0x0D ∧ b.val ≠ 0x09) := by
    simp only [htmlSafe, Bool.and_eq_false_iff, decide_eq_false_iff_not, bne_eq_false_iff_eq,
      beq_iff_eq, Bool.and_eq_false_imp, decide_eq_true_eq, bne_iff_ne, ne_eq] at hs
    omega
  rcases hcases with h | h | h | h | h | h | h | ⟨h, n1, n2, n3, n4, n5⟩
  · have hb : b = 0x5C := Fin.ext h
    subst hb
    exact ⟨fun t => by simp [escapeByte, scanString, Option.map_map, Function.comp_def,
        Fin.coe_ofNat_eq_mod],
      0x5C, [0x5C], by simp [escapeByte, Fin.coe_ofNat_eq_mod],
      fun t => by simp [unquoteStep, Fin.coe_ofNat_eq_mod]⟩
  · have hb : b = 0x22 := Fin.ext h
    subst hb
    exact ⟨fun t => by simp [escapeByte, scanString, Option.map_map, Function.comp_def,
        Fin.coe_ofNat_eq_mod],
      0x5C, [0x22], by simp [escapeByte, Fin.coe_ofNat_eq_mod],
      fun t => by simp [unquoteStep, Fin.coe_ofNat_eq_mod]⟩
  · have hb : b = 0x08 := Fin.ext h
    subst hb
    exact ⟨fun t => by simp [escapeByte, scanString, Option.map_map, Function.comp_def,
        Fin.coe_ofNat_eq_mod],
      0x5C, [0x62], by simp [escapeByte, Fin.coe_ofNat_eq_mod],
      fun t => by simp [unquoteStep, Fin.coe_ofNat_eq_mod]⟩
  · have hb : b = 0x0C := Fin.ext h
    subst hb
    exact ⟨fun t => by simp [escapeByte, scanString, Option.map_map, Function.comp_def,
        Fin.coe_ofNat_eq_mod],
      0x5C, [0x66], by simp [escapeByte, Fin.coe_ofNat_eq_mod],
      fun t => by simp [unquoteStep, Fin.coe_ofNat_eq_mod]⟩
  · have hb : b = 0x0A := Fin.ext h
    subst hb
    exact ⟨fun t => by simp [escapeByte, scanString, Option.map_map, Function.comp_def,
        Fin.coe_ofNat_eq_mod],
      0x5C, [0x6E], by simp [escapeByte, Fin.coe_ofNat_eq_mod],
      fun t => by simp [unquoteStep, Fin.coe_ofNat_eq_mod]⟩
  · have hb : b = 0x0D := Fin.ext h
    subst hb
    exact ⟨fun t => by simp [escapeByte, scanString, Option.map_map, Function.comp_def,
        Fin.coe_ofNat_eq_mod],
      0x5C, [0x72], by simp [escapeByte, Fin.coe_ofNat_eq_mod],
      fun t => by simp [unquoteStep, Fin.coe_ofNat_eq_mod]⟩
  · have hb : b = 0x09 := Fin.ext h
    subst hb
    exact ⟨fun t => by simp [escapeByte, scanString, Option.map_map, Function.comp_def,
        Fin.coe_ofNat_eq_mod],
      0x5C, [0x74], by simp [escapeByte, Fin.coe_ofNat_eq_mod],
      fun t => by simp [unquoteStep, Fin.coe_ofNat_eq_mod]⟩
  · have m1 : b.val ≠ 0x5C := by omega
    have m2 : b.val ≠ 0x22 := by omega
    have hesc : escapeByte b
        = [0x5C, 0x75, 0x30, 0x30, hexDigit (b.val / 16), hexDigit (b.val % 16)] := by
      simp [escapeByte, m1, m2, n1, n2, n3, n4, n5]
    have d1 := hexVal_hexDigit (b.val / 16) (by omega)
    have d2 := hexVal_hexDigit (b.val % 16) (by omega)
    have z0 : hexVal (0x30 : Byte) = some 0 := by decide
    rw [hesc]
    refine ⟨fun t => ?_, 0x5C, [0x75, 0x30, 0x30, hexDigit (b.val / 16), hexDigit (b.val % 16)],
      rfl, fun t => ?_⟩
    · simp [scanString, Option.map_map, Function.comp_def, Fin.coe_ofNat_eq_mod, d1, d2, z0]
    · have hg : getu4 ((0x5C : Byte) :: ([0x75, 0x30, 0x30, hexDigit (b.val / 16),
          hexDigit (b.val % 16)] ++ t)) = some b.val := by
        simp only [getu4, List.cons_append, List.nil_append, d1, d2, z0]
        simp [Fin.coe_ofNat_eq_mod]
        omega
      have hs1 : ¬ (0xD800 ≤ b.val ∧ b.val < 0xE000) := by omega
      have henc : encodeRune b.val = [b] := by
        have : b.val ≤ 0x7F := by omega
        simp [encodeRune, this, byte_val]
      simp only [unquoteStep, hg, hs1, henc, if_false]
      simp [Fin.coe_ofNat_eq_mod]

theorem Piece.lineSep (c : Nat) (hc : c = 0x2028 ∨ c = 0x2029) :
    Piece [0x5C, 0x75, 0x32, 0x30, 0x32, hexDigit (c % 16)] (encodeRune c) := by
  have z0 : hexVal (0x30 : Byte) = some 0 := by decide
  have z2 : hexVal (0x32 : Byte) = some 2 := by decide
  have d := hexVal_hexDigit (c % 16) (by omega)
  refine ⟨fun t => ?_, 0x5C, [0x75, 0x32, 0x30, 0x32, hexDigit (c % 16)], rfl, fun t => ?_⟩
  · simp [scanString, Option.map_map, Function.comp_def, Fin.coe_ofNat_eq_mod, d, z0, z2]
  · have hg : getu4 ((0x5C : Byte) :: ([0x75, 0x32, 0x30, 0x32, hexDigit (c % 16)] ++ t))
        = some c := by
      simp only [getu4, List.cons_append, List.nil_append, d, z0, z2]
      simp [Fin.coe_ofNat_eq_mod]
      omega
    have hs1 : ¬ (0xD800 ≤ c ∧ c < 0xE000) := by omega
    simp only [unquoteStep, hg, hs1, if_false]
    simp [Fin.coe_ofNat_eq_mod]

theorem appendStringStep_piece (b : Byte) (rest : List Byte)
    (hv : 0x80 ≤ b.val → (decodeRune (b :: rest)).2 ≠ 1) :
    ∃ out, b :: rest = out ++ (appendStringStep b rest).2 ∧ out ≠ [] ∧
      Piece (appendStringStep b rest).1 out := by
  by_cases hb : b.val < 0x80
  · refine ⟨[b], by simp [appendStringStep, hb], by simp, ?_⟩
    cases hs : htmlSafe b with
    | true =>
      have hs' := hs
      simp only [htmlSafe, Bool.and_eq_true, decide_eq_true_eq, bne_iff_ne, ne_eq] at hs'
      simp only [appendStringStep, hb, if_true, hs]
      exact Piece.plain b (by omega) hb (by omega) (by omega)
    | false =>
      simp only [appendStringStep, hb, if_true, hs]
      exact Piece.escape b hb hs
  · have hb' : 0x80 ≤ b.val := by omega
    have hsz := hv hb'
    obtain ⟨chunk, t, hsplit, hlen, henc, hne, hp⟩ := Piece.rune b rest hb' hsz
    have hdrop : (b :: rest).drop (decodeRune (b :: rest)).2 = t := by
      rw [← hlen, hsplit, List.drop_left]
    have htake : (b :: rest).take (decodeRune (b :: rest)).2 = chunk := by
      rw [← hlen, hsplit, List.take_left]
    have h1 : ¬ ((decodeRune (b :: rest)).1 = RuneError ∧ (decodeRune (b :: rest)).2 = 1) :=
      fun h => hsz h.2
    by_cases hls : (decodeRune (b :: rest)).1 = 0x2028 ∨ (decodeRune (b :: rest)).1 = 0x2029
    · refine ⟨chunk, ?_, hne, ?_⟩
      · simp only [appendStringStep, hb, h1, hls, if_false, if_true, hdrop]
        exact hsplit
      · simp only [appendStringStep, hb, h1, hls, if_false, if_true]
        rw [← henc]
        exact Piece.lineSep _ hls
    · refine ⟨chunk, ?_, hne, ?_⟩
      · simp only [appendStringStep, hb, h1, hls, if_false, hdrop]
        exact hsplit
      · simp only [appendStringStep, hb, h1, hls, if_false, htake]
        exact hp

theorem validStringLoop_step (k : Nat) (b : Byte) (rest : List Byte)
    (h : validStringLoop (k + 1) (b :: rest) = true) :
    (0x80 ≤ b.val → (decodeRune (b :: rest)).2 ≠ 1) ∧
      validStringLoop k (appendStringStep b rest).2 = true := by
  unfold validStringLoop at h
  by_cases hb : b.val < 0x80
  · simp only [hb, if_true] at h
    exact ⟨fun h' => absurd hb (by omega), by simpa [appendStringStep, hb] using h⟩
  · simp only [hb, if_false] at h
    by_cases hsz : (decodeRune (b :: rest)).2 = 1
    · simp [hsz] at h
    · simp only [hsz, if_false] at h
      refine ⟨fun _ => hsz, ?_⟩
      have h1 : ¬ ((decodeRune (b :: rest)).1 = RuneError ∧ (decodeRune (b :: rest)).2 = 1) :=
        fun h => hsz h.2
      by_cases hls : (decodeRune (b :: rest)).1 = 0x2028 ∨ (decodeRune (b :: rest)).1 = 0x2029
      · simpa [appendStringStep, hb, h1, hls] using h
      · simpa [appendStringStep, hb, h1, hls] using h

theorem appendStringLoop_roundtrip (n : Nat) :
    ∀ src : List Byte, src.length ≤ n → ∀ k, src.length ≤ k → validStringLoop k src = true →
      (∀ t, scanString .inString (appendStringLoop n src ++ t)
          = (scanString .inString t).map (· + (appendStringLoop n src).length)) ∧
      (∀ m, (appendStringLoop n src).length ≤ m →
          unquoteLoop m (appendStringLoop n src) = some src) := by
  induction n with
  | zero =>
    intro src hn k _ _
    have : src = [] := List.length_eq_zero.mp (Nat.le_zero.mp hn)
    subst this
    refine ⟨fun t => by simp [appendStringLoop], fun m _ => ?_⟩
    cases m <;> simp [appendStringLoop, unquoteLoop]
  | succ n ih =>
    intro src hn k hk hv
    cases src with
    | nil =>
      refine ⟨fun t => by simp [appendStringLoop], fun m _ => ?_⟩
      cases m <;> simp [appendStringLoop, unquoteLoop]
    | cons b rest =>
      cases k with
      | zero => simp at hk
      | succ k =>
        obtain ⟨hsz, hvr⟩ := validStringLoop_step k b rest hv
        obtain ⟨out, hsplit, hne, hscan, c, cs, hch, hunq⟩ := appendStringStep_piece b rest hsz
        have hlen : (appendStringStep b rest).2.length < (b :: rest).length := by
          have := congrArg List.length hsplit
          rw [List.length_append] at this
          have hpos : 0 < out.length := List.length_pos.mpr hne
          omega
        simp only [List.length_cons] at hn hk hlen
        obtain ⟨ih1, ih2⟩ := ih (appendStringStep b rest).2 (by omega) k (by omega) hvr
        have hloop : appendStringLoop (n + 1) (b :: rest)
            = (appendStringStep b rest).1 ++ appendStringLoop n (appendStringStep b rest).2 :=
          rfl
        rw [hloop]
        refine ⟨fun t => ?_, fun m hm => ?_⟩
        · rw [List.append_assoc, hscan, ih1, Option.map_map, List.length_append]
          congr 1
          funext x
          simp only [Function.comp]
          omega
        · rw [hch] at hm ⊢
          cases m with
          | zero => simp at hm
          | succ m =>
            simp only [List.length_append, List.length_cons] at hm
            rw [List.cons_append, unquoteLoop, hunq]
            simp only []
            rw [ih2 m (by omega), Option.map_some', ← hsplit]

theorem drop_length_succ (body : List Byte) (c : Byte) (rest : List Byte) :
    (body ++ c :: rest).drop (body.length + 1) = rest := by
  induction body with
  | nil => rfl
  | cons b body ih => simp

theorem appendString_cons (x : Str) :
    appendString x = (0x22 : Byte) :: (appendStringLoop x.length x ++ [(0x22 : Byte)]) := rfl

theorem decodeElem_appendString (x : Str) (hx : validString x = true) (rest : List Byte) :
    decodeElem (appendString x ++ rest) = some (x, rest) := by
  obtain ⟨hscan, hunq⟩ :=
    appendStringLoop_roundtrip x.length x (Nat.le_refl _) x.length (Nat.le_refl _) hx
  have hq : scanString .inString ((0x22 : Byte) :: rest) = some 0 := by
    simp [scanString, Fin.coe_ofNat_eq_mod]
  have hshape : appendString x ++ rest
      = (0x22 : Byte) :: (appendStringLoop x.length x ++ (0x22 : Byte) :: rest) := by
    simp [appendString]
  have hval : ((0x22 : Byte)).val = 0x22 := rfl
  rw [hshape]
  simp only [decodeElem, hval, if_true, hscan, hq, Option.map_some', Nat.zero_add,
    List.take_left, unquote, hunq _ (Nat.le_refl _), drop_length_succ]

theorem skipSpace_appendString (x : Str) (rest : List Byte) :
    skipSpace (appendString x ++ rest) = appendString x ++ rest := by
  rw [appendString_cons, List.cons_append]
  simp [skipSpace, isSpace, Fin.coe_ofNat_eq_mod]

theorem intercalate_one (sep a : List Byte) : List.intercalate sep [a] = a := by
  simp [List.intercalate]

theorem intercalate_two (sep a b : List Byte) (l : List (List Byte)) :
    List.intercalate sep (a :: b :: l) = a ++ (sep ++ List.intercalate sep (b :: l)) := by
  simp [List.intercalate, List.intersperse]

theorem decodeElems_more (n : Nat) (x : Str) (data rest1 : List Byte)
    (h : decodeElem data = some (x, (0x2C : Byte) :: rest1)) :
    decodeElems (n + 1) data =
      match decodeElems n (skipSpace rest1) with
      | none => none
      | some (l, rest2) => some (x :: l, rest2) := by
  rw [decodeElems, h]
  simp [skipSpace, isSpace, Fin.coe_ofNat_eq_mod]

theorem decodeElems_last (n : Nat) (x : Str) (data rest1 : List Byte)
    (h : decodeElem data = some (x, (0x5D : Byte) :: rest1)) :
    decodeElems (n + 1) data = some ([x], rest1) := by
  rw [decodeElems, h]
  simp [skipSpace, isSpace, Fin.coe_ofNat_eq_mod]

theorem arrayBody_one (x : Str) : arrayBody [x] = appendString x := by
  simp [arrayBody, intercalate_one]

theorem arrayBody_two (x y : Str) (l : List Str) :
    arrayBody (x :: y :: l) = appendString x ++ (0x2C : Byte) :: arrayBody (y :: l) := by
  simp [arrayBody, intercalate_two]

theorem skipSpace_arrayBody (x : Str) (l : List Str) (rest : List Byte) :
    skipSpace (arrayBody (x :: l) ++ rest) = arrayBody (x :: l) ++ rest := by
  cases l with
  | nil => rw [arrayBody_one, skipSpace_appendString]
  | cons y l => rw [arrayBody_two, List.append_assoc, skipSpace_appendString]

theorem decodeElems_arrayBody (l : List Str) :
    ∀ (x : Str) (n : Nat) (rest : List Byte), l.length < n →
      (∀ y ∈ x :: l, validString y = true) →
      decodeElems n (arrayBody (x :: l) ++ (0x5D : Byte) :: rest) = some (x :: l, rest) := by
  induction l with
  | nil =>
    intro x n rest hn hv
    cases n with
    | zero => simp at hn
    | succ n =>
      rw [arrayBody_one]
      exact decodeElems_last n x _ rest
        (decodeElem_appendString x (hv x (List.mem_cons_self _ _)) _)
  | cons y l ih =>
    intro x n rest hn hv
    cases n with
    | zero => simp at hn
    | succ n =>
      have hnext := ih y n rest (by simpa using hn)
        (fun z hz => hv z (List.mem_cons_of_mem _ hz))
      rw [arrayBody_two, List.append_assoc, List.cons_append]
      rw [decodeElems_more n x _ _
        (decodeElem_appendString x (hv x (List.mem_cons_self _ _)) _)]
      rw [skipSpace_arrayBody, hnext]

theorem length_le_arrayBody (l : List Str) (rest : List Byte) :
    l.length ≤ (arrayBody l ++ rest).length := by
  induction l with
  | nil => simp
  | cons x l ih =>
    cases l with
    | nil =>
      rw [arrayBody_one, appendString_cons]
      simp
    | cons y l =>
      rw [arrayBody_two, appendString_cons]
      simp only [List.length_cons, List.length_append] at ih ⊢
      omega

theorem jsonUnmarshal_jsonMarshal (l : List Str) (hv : ∀ y ∈ l, validString y = true) :
    jsonUnmarshal ([0x5B] ++ List.intercalate [0x2C] (l.map appendString) ++ [0x5D])
      = .ok (some l) := by
  cases l with
  | nil => decide
  | cons x l =>
    have hlen := length_le_arrayBody (x :: l) [(0x5D : Byte)]
    have hdec := decodeElems_arrayBody l x (arrayBody (x :: l) ++ [(0x5D : Byte)]).length []
      (by simp only [List.length_cons] at hlen; omega) hv
    have hskip := skipSpace_arrayBody x l [(0x5D : Byte)]
    have hhead : ∃ t1, arrayBody (x :: l) ++ [(0x5D : Byte)] = (0x22 : Byte) :: t1 := by
      cases l with
      | nil => exact ⟨_, by rw [arrayBody_one, appendString_cons]; rfl⟩
      | cons z l => exact ⟨_, by rw [arrayBody_two, appendString_cons]; rfl⟩
    obtain ⟨t1, ht1⟩ := hhead
    have hdata : [0x5B] ++ List.intercalate [0x2C] ((x :: l).map appendString) ++ [0x5D]
        = (0x5B : Byte) :: (arrayBody (x :: l) ++ [(0x5D : Byte)]) := by
      simp [arrayBody]
    rw [hdata]
    rw [ht1] at hdec hskip ⊢
    have hs0 : skipSpace ((0x5B : Byte) :: (0x22 : Byte) :: t1) = (0x5B : Byte) :: (0x22 : Byte) :: t1 := by
      simp [skipSpace, isSpace, Fin.coe_ofNat_eq_mod]
    have v1 : ((0x5B : Byte)).val = 0x5B := rfl
    have v2 : ((0x22 : Byte)).val ≠ 0x5D := by decide
    unfold jsonUnmarshal
    rw [hs0]
    simp only [v1, if_true, hskip, v2, if_false, hdec]
    rfl

theorem New_Equal_of_perm (l : List Str) (s : Set) (h : l.Perm s.range) :
    (New l).Equal s = true := by
  rw [Set.Equal_iff_perm, Set.perm_iff_contains]
  intro x
  rw [Bool.eq_iff_iff]
  unfold New
  rw [Add_contains, Set.Contains_iff_mem s, ← h.mem_iff]
  simp [Set.Contains]

theorem UnmarshalJSON_of_null (h : Set) (data : List Byte)
    (hd : jsonUnmarshal data = .ok none) : h.UnmarshalJSON data = (Set.nil, none) := by
  unfold Set.UnmarshalJSON
  rw [hd]

theorem UnmarshalJSON_of_array (h : Set) (data : List Byte) (l : List Str)
    (hd : jsonUnmarshal data = .ok (some l)) : h.UnmarshalJSON data = (New l, none) := by
  unfold Set.UnmarshalJSON
  rw [hd]

/-- C2, as amended: for a set whose members are valid UTF-8, `MarshalJSON`
succeeds, `UnmarshalJSON` of its output succeeds whatever the target held, and the
set it leaves is `Equal` to the original; for the nil set the output is `null`
and the target becomes nil. -/
theorem MarshalJSON_roundtrip (s h : Set)
    (hv : ∀ x ∈ elems s.Values, validString x = true) :
    ∃ data, s.MarshalJSON = .ok data ∧
      ∃ t, h.UnmarshalJSON data = (t, none) ∧ t.Equal s = true ∧
        (s = Set.nil → data = lit "null" ∧ t = Set.nil) := by
  have hnull : jsonUnmarshal (lit "null") = .ok none := by decide
  by_cases hl : s.Len = 0
  · have hm : s.MarshalJSON = .ok (lit "null") := by
      cases s with
      | nil => rfl
      | alloc m =>
        unfold Set.MarshalJSON
        simp only [Set.Values_of_eq _ hl]
        rfl
    refine ⟨lit "null", hm, Set.nil, UnmarshalJSON_of_null h _ hnull, ?_, fun _ => ⟨rfl, rfl⟩⟩
    rw [Set.Equal_iff_perm]
    rw [Set.Len_eq_length] at hl
    rw [List.length_eq_zero.mp hl]
    exact List.Perm.refl _
  · have hvals := Set.Values_of_ne s hl
    have hm : s.MarshalJSON = .ok ([0x5B] ++
        List.intercalate [0x2C] ((sortStrings s.range).map appendString) ++ [0x5D]) := by
      cases s with
      | nil => exact absurd rfl hl
      | alloc m =>
        unfold Set.MarshalJSON
        simp only [hvals]
        rfl
    have hv' : ∀ y ∈ sortStrings s.range, validString y = true := by
      intro y hy
      apply hv
      rw [Set.elems_Values]
      exact hy
    refine ⟨_, hm, New (sortStrings s.range),
      UnmarshalJSON_of_array h _ _ (jsonUnmarshal_jsonMarshal _ hv'),
      New_Equal_of_perm _ s (sortStrings_perm _), fun hnil => ?_⟩
    subst hnil
    exact absurd rfl hl

/-- Witness of C2: the set of "2b", "1a" and "3c", decoded into a target that
held "x". -/
theorem MarshalJSON_roundtrip_witness :
    ∃ data, (New [lit "2b", lit "1a", lit "3c"]).MarshalJSON = .ok data ∧
      ∃ t, (New [lit "x"]).UnmarshalJSON data = (t, none) ∧
        t.Equal (New [lit "2b", lit "1a", lit "3c"]) = true ∧
        (New [lit "2b", lit "1a", lit "3c"] = Set.nil → data = lit "null" ∧ t = Set.nil) :=
  MarshalJSON_roundtrip (New [lit "2b", lit "1a", lit "3c"]) (New [lit "x"]) (by decide)

/-- C2 fails as stated: the set of the one-byte string `"\xff"`, which is not
valid UTF-8, is written as the array of the string U+FFFD (the bytes EF BF BD
between quotes), and that decodes to the set of the three-byte string U+FFFD,
which is not `Equal` to the original. -/
theorem MarshalJSON_roundtrip_invalid_utf8 :
    (New [[0xFF]]).MarshalJSON = .ok [0x5B, 0x22, 0xEF, 0xBF, 0xBD, 0x22, 0x5D] ∧
    (Set.nil.UnmarshalJSON [0x5B, 0x22, 0xEF, 0xBF, 0xBD, 0x22, 0x5D]).2 = none ∧
    (Set.nil.UnmarshalJSON [0x5B, 0x22, 0xEF, 0xBF, 0xBD, 0x22, 0x5D]).1.Values
      = some [[0xEF, 0xBF, 0xBD]] ∧
    (Set.nil.UnmarshalJSON [0x5B, 0x22, 0xEF, 0xBF, 0xBD, 0x22, 0x5D]).1.Equal (New [[0xFF]])
      = false ∧
    ¬ ∃ data, (New [[0xFF]]).MarshalJSON = .ok data ∧
        ∃ t, Set.nil.UnmarshalJSON data = (t, none) ∧ t.Equal (New [[0xFF]]) = true := by
  have hm : (New [[0xFF]]).MarshalJSON = .ok [0x5B, 0x22, 0xEF, 0xBF, 0xBD, 0x22, 0x5D] := by
    decide
  have he : (Set.nil.UnmarshalJSON [0x5B, 0x22, 0xEF, 0xBF, 0xBD, 0x22, 0x5D]).1.Equal
      (New [[0xFF]]) = false := by
    decide
  refine ⟨hm, by decide, by decide, he, ?_⟩
  rintro ⟨data, hd, t, ht, heq⟩
  rw [hm] at hd
  have hdata : [0x5B, 0x22, 0xEF, 0xBF, 0xBD, 0x22, 0x5D] = data := Except.ok.inj hd
  subst hdata
  rw [ht] at he
  rw [heq] at he
  exact Bool.noConfusion he

/-! ## Serialisation and formatting of the sorted members -/

theorem Set.MarshalJSON_eq (s : Set) : s.MarshalJSON = jsonMarshal s.Values := by
  cases s with
  | nil => rfl
  | alloc m => rfl

theorem joinWith_eq_intercalate (sep : Str) (l : List Str) :
    joinWith sep l = List.intercalate sep l := by
  induction l with
  | nil => rfl
  | cons a l ih =>
    cases l with
    | nil => simp [joinWith, List.intercalate]
    | cons b l =>
      rw [joinWith, ih]
      simp [List.intercalate, List.intersperse]

theorem Set.Join_eq (s : Set) (sep : Str) : s.Join sep = joinWith sep (elems s.Values) := by
  rw [joinWith_eq_intercalate]
  unfold Set.Join stringsJoin elems
  cases s.Values <;> rfl

theorem stringsTrimPrefix_append (p x : Str) : stringsTrimPrefix (p ++ x) p = x := by
  unfold stringsTrimPrefix
  have h : p.isPrefixOf (p ++ x) = true := by
    rw [List.isPrefixOf_iff_prefix]
    exact List.prefix_append p x
  rw [if_pos h, List.drop_left]

/-- C12: when `json.Unmarshal` decodes the input without error, `UnmarshalJSON`
returns no error; `null` leaves the target nil, and an array, the empty one
included, leaves the non-nil set `New` builds from its elements, whose members
are the distinct elements. -/
theorem UnmarshalJSON_decoded (h : Set) (data : List Byte) (strs : Option (List Str))
    (hd : jsonUnmarshal data = .ok strs) :
    (h.UnmarshalJSON data).2 = none ∧
    (strs = none → (h.UnmarshalJSON data).1 = Set.nil) ∧
    (∀ l, strs = some l →
      (h.UnmarshalJSON data).1 = New l ∧ (h.UnmarshalJSON data).1 ≠ Set.nil ∧
      (∀ x : Str, (h.UnmarshalJSON data).1.Contains x = true ↔ x ∈ l) ∧
      (h.UnmarshalJSON data).1.Len = l.toFinset.card) := by
  cases strs with
  | none =>
    rw [UnmarshalJSON_of_null h data hd]
    exact ⟨rfl, fun _ => rfl, fun l hl => Option.noConfusion hl⟩
  | some l0 =>
    rw [UnmarshalJSON_of_array h data l0 hd]
    refine ⟨rfl, fun hn => Option.noConfusion hn, fun l hl => ?_⟩
    cases hl
    refine ⟨rfl, Add_ne_nil Set.nil l0, fun x => ?_, ?_⟩
    · show (New l0).Contains x = true ↔ x ∈ l0
      unfold New
      rw [Add_contains]
      simp [Set.Contains]
    · show (New l0).Len = l0.toFinset.card
      rw [Set.Len_eq_length, ← List.toFinset_card_of_nodup (New l0).range_nodup]
      congr 1
      ext x
      rw [List.mem_toFinset, List.mem_toFinset]
      unfold New
      rw [Add_range]
      simp [Set.range]

/-- Witness of C12: the array of "b", "a" and "b" decoded into a target that held
"x" leaves a set of length 2. -/
theorem UnmarshalJSON_decoded_witness :
    ((New [lit "x"]).UnmarshalJSON (lit "[\"b\",\"a\",\"b\"]")).2 = none ∧
    ((New [lit "x"]).UnmarshalJSON (lit "[\"b\",\"a\",\"b\"]")).1
      = New [lit "b", lit "a", lit "b"] ∧
    ((New [lit "x"]).UnmarshalJSON (lit "[\"b\",\"a\",\"b\"]")).1.Len = 2 :=
  ⟨(UnmarshalJSON_decoded (New [lit "x"]) (lit "[\"b\",\"a\",\"b\"]")
      (some [lit "b", lit "a", lit "b"]) (by decide)).1,
    ((UnmarshalJSON_decoded (New [lit "x"]) (lit "[\"b\",\"a\",\"b\"]")
      (some [lit "b", lit "a", lit "b"]) (by decide)).2.2 _ rfl).1,
    ((UnmarshalJSON_decoded (New [lit "x"]) (lit "[\"b\",\"a\",\"b\"]")
      (some [lit "b", lit "a", lit "b"]) (by decide)).2.2 _ rfl).2.2.2⟩

/-- C14: when `UnmarshalJSON` returns an error, the target holds the set it held
before the call. -/
theorem UnmarshalJSON_error_unchanged (s : Set) (data : List Byte)
    (herr : (s.UnmarshalJSON data).2 ≠ none) : (s.UnmarshalJSON data).1 = s := by
  unfold Set.UnmarshalJSON at herr ⊢
  cases hd : jsonUnmarshal data with
  | error err => rfl
  | ok strs =>
    rw [hd] at herr
    cases strs <;> exact absurd rfl herr

/-- Witness of C14: the input `["1","2",3]` decoded into the set of "x". -/
theorem UnmarshalJSON_error_unchanged_witness :
    ((New [lit "x"]).UnmarshalJSON (lit "[\"1\",\"2\",3]")).1 = New [lit "x"] :=
  UnmarshalJSON_error_unchanged (New [lit "x"]) (lit "[\"1\",\"2\",3]") (by decide)

theorem Set.Values_eq_of_perm (a b : Set) (h : a.range.Perm b.range) : a.Values = b.Values := by
  have hl : a.Len = b.Len := by
    rw [Set.Len_eq_length, Set.Len_eq_length]
    exact h.length_eq
  by_cases h0 : a.Len = 0
  · rw [Set.Values_of_eq a h0, Set.Values_of_eq b (hl ▸ h0)]
  · rw [Set.Values_of_ne a h0, Set.Values_of_ne b (hl ▸ h0), sortStrings_eq_of_perm _ _ h]

theorem Set.elems_Values_of_Len_eq_zero (s : Set) (h : s.Len = 0) : elems s.Values = [] := by
  rw [Set.Values_of_eq s h]
  rfl

theorem Set.elems_Values_of_Len_eq_one (s : Set) (m : Str) (h : s.Len = 1)
    (hm : s.Contains m = true) : elems s.Values = [m] := by
  have hp := sortStrings_perm s.range
  rw [Set.elems_Values]
  rw [Set.Len_eq_length, ← hp.length_eq] at h
  rw [Set.Contains_iff_mem, ← hp.mem_iff] at hm
  match hs : sortStrings s.range, h, hm with
  | [y], _, hm =>
    rw [List.mem_singleton] at hm
    rw [hm]

/-- C15: `Join` is the members in ascending order with the separator between
consecutive ones; it is empty for a set without members and the member itself
for a set of one. -/
theorem Join_sorted_members :
    (∀ (s : Set) (sep : Str), s.Join sep = joinWith sep (elems s.Values) ∧
      (elems s.Values).Pairwise (fun a b => strLess a b = true) ∧
      ∀ x : Str, x ∈ elems s.Values ↔ s.Contains x = true) ∧
    (∀ (s : Set) (sep : Str), (∀ x : Str, s.Contains x = false) → s.Join sep = []) ∧
    (∀ (s : Set) (sep m : Str), s.Len = 1 → s.Contains m = true → s.Join sep = m) ∧
    (New [lit "2b", lit "1a", lit "3c"]).Join (lit ".") = lit "1a.2b.3c" ∧
    Set.nil.Join (lit ",") = lit "" := by
  refine ⟨fun s sep => ⟨Set.Join_eq s sep, ?_, fun x => ?_⟩, fun s sep h => ?_,
    fun s sep m h1 hm => ?_, by decide, by decide⟩
  · rw [Set.elems_Values]
    exact sortStrings_strict _ s.range_nodup
  · rw [Set.elems_Values, Set.Contains_iff_mem]
    exact (sortStrings_perm _).mem_iff
  · rw [Set.Join_eq, Set.elems_Values_of_Len_eq_zero s ((Set.Len_eq_zero_iff s).mpr h)]
    rfl
  · rw [Set.Join_eq, Set.elems_Values_of_Len_eq_one s m h1 hm]
    rfl

/-- Witness of C15: the set emptied by `Remove`, and the set of "1". -/
theorem Join_sorted_members_witness :
    ((New [lit "a"]).Remove [lit "a"]).Join (lit ".") = [] ∧
    (New [lit "1"]).Join (lit "-") = lit "1" :=
  ⟨Join_sorted_members.2.1 ((New [lit "a"]).Remove [lit "a"]) (lit ".")
      ((Set.Len_eq_zero_iff _).mp (by decide)),
    Join_sorted_members.2.2.1 (New [lit "1"]) (lit "-") (lit "1") (by decide) (by decide)⟩

/-- C16: `String` is `[`, the members in ascending order separated by single
spaces, and `]`, which is `[` followed by `Join(" ")` and `]`; it is `[]` for a set
without members. -/
theorem String_format :
    (∀ s : Set, s.String = [0x5B] ++ s.Join [0x20] ++ [0x5D] ∧
      s.String = [0x5B] ++ joinWith [0x20] (elems s.Values) ++ [0x5D]) ∧
    (∀ s : Set, (∀ x : Str, s.Contains x = false) → s.String = lit "[]") ∧
    (New [lit "2b", lit "1a", lit "3c"]).String = lit "[1a 2b 3c]" ∧
    Set.nil.String = lit "[]" ∧ (New []).String = lit "[]" := by
  have h1 : ∀ s : Set, s.String = [0x5B] ++ joinWith [0x20] (elems s.Values) ++ [0x5D] := by
    intro s
    rw [joinWith_eq_intercalate]
    rfl
  refine ⟨fun s => ⟨?_, h1 s⟩, fun s h => ?_, by decide, by decide, by decide⟩
  · rw [Set.Join_eq]
    exact h1 s
  · rw [h1, Set.elems_Values_of_Len_eq_zero s ((Set.Len_eq_zero_iff s).mpr h)]
    rfl

/-- Witness of C16: the set emptied by `Remove`. -/
theorem String_format_witness : ((New [lit "a"]).Remove [lit "a"]).String = lit "[]" :=
  String_format.2.1 ((New [lit "a"]).Remove [lit "a"]) ((Set.Len_eq_zero_iff _).mp (by decide))

/-- C19: `Equal` is reflexive and symmetric. -/
theorem Equal_refl_symm :
    (∀ s : Set, s.Equal s = true) ∧ (∀ a b : Set, a.Equal b = b.Equal a) ∧
    Set.nil.Equal (New []) = true ∧ (New []).Equal Set.nil = true := by
  refine ⟨fun s => ?_, fun a b => ?_, by decide, by decide⟩
  · rw [Set.Equal_iff_perm]
  · rw [Bool.eq_iff_iff, Set.Equal_iff_perm, Set.Equal_iff_perm]
    exact ⟨List.Perm.symm, List.Perm.symm⟩

/-- C20: sets that are `Equal` agree on every read operation: `Len`, `Contains`,
`Values` (nil or not, and element for element), `Join`, `String` and
`MarshalJSON`. -/
theorem reads_agree_of_Equal (a b : Set) (h : a.Equal b = true) :
    a.Len = b.Len ∧ (∀ x : Str, a.Contains x = b.Contains x) ∧ a.Values = b.Values ∧
    (∀ sep : Str, a.Join sep = b.Join sep) ∧ a.String = b.String ∧
    a.MarshalJSON = b.MarshalJSON := by
  have hp := (Set.Equal_iff_perm a b).mp h
  have hv := Set.Values_eq_of_perm a b hp
  refine ⟨?_, (Set.perm_iff_contains a b).mp hp, hv, fun sep => ?_, ?_, ?_⟩
  · rw [Set.Len_eq_length, Set.Len_eq_length]
    exact hp.length_eq
  · unfold Set.Join
    rw [hv]
  · unfold Set.String
    rw [hv]
  · rw [Set.MarshalJSON_eq, Set.MarshalJSON_eq, hv]

/-- Witness of C20: the nil set and `New()`. -/
theorem reads_agree_of_Equal_witness :
    Set.nil.Len = (New []).Len ∧ Set.nil.Values = (New []).Values ∧
    Set.nil.String = (New []).String ∧ Set.nil.MarshalJSON = (New []).MarshalJSON :=
  ⟨(reads_agree_of_Equal Set.nil (New []) (by decide)).1,
    (reads_agree_of_Equal Set.nil (New []) (by decide)).2.2.1,
    (reads_agree_of_Equal Set.nil (New []) (by decide)).2.2.2.2.1,
    (reads_agree_of_Equal Set.nil (New []) (by decide)).2.2.2.2.2⟩

theorem quoteLoop_plain (table : Nat → Bool) (n : Nat) :
    ∀ m : List Byte, m.length ≤ n →
      (∀ b ∈ m, 0x20 ≤ b.val ∧ b.val ≤ 0x7E ∧ b.val ≠ 0x22 ∧ b.val ≠ 0x5C) →
      quoteLoop table n m = m := by
  induction n with
  | zero =>
    intro m hn _
    rw [List.length_eq_zero.mp (Nat.le_zero.mp hn)]
    rfl
  | succ n ih =>
    intro m hn hm
    cases m with
    | nil => rfl
    | cons b rest =>
      obtain ⟨h1, h2, h3, h4⟩ := hm b (List.mem_cons_self _ _)
      have hlt : b.val < 0x80 := by omega
      have hne : ¬ (b.val = RuneError) := by
        unfold RuneError
        omega
      have hq : ¬ (b.val = 0x22 ∨ b.val = 0x5C) := by omega
      have hp : isPrint table b.val = true := by
        have h5 : b.val ≤ 0xFF := by omega
        simp only [isPrint, h5, if_true]
        rw [if_pos ⟨h1, h2⟩]
      have he : encodeRune b.val = [b] := by
        have h5 : b.val ≤ 0x7F := by omega
        simp [encodeRune, h5, byte_val]
      have hrest := ih rest (by simpa using hn) (fun c hc => hm c (List.mem_cons_of_mem _ hc))
      rw [quoteLoop]
      simp only [hlt, if_true, hne, and_false, if_false, appendEscapedRune, hq, hp, he,
        List.drop_one, List.tail_cons, hrest]
      rfl

theorem strconvQuote_plain (table : Nat → Bool) (m : Str) (hm : plainASCII m = true) :
    strconvQuote table m = [0x22] ++ m ++ [0x22] := by
  have hm' : ∀ b ∈ m, 0x20 ≤ b.val ∧ b.val ≤ 0x7E ∧ b.val ≠ 0x22 ∧ b.val ≠ 0x5C := by
    intro b hb
    have h := List.all_eq_true.mp hm b hb
    simp only [Bool.and_eq_true, decide_eq_true_eq, bne_iff_ne, ne_eq] at h
    exact ⟨h.1.1.1, h.1.1.2, h.1.2, h.2⟩
  unfold strconvQuote
  rw [quoteLoop_plain table m.length m (Nat.le_refl _) hm']

theorem GoString_three (table : Nat → Bool) :
    (New [lit "2b", lit "1a", lit "3c"]).GoString table
      = lit "stringset.Set\x7b\"1a\", \"2b\", \"3c\"\x7d" := by
  have hv : (New [lit "2b", lit "1a", lit "3c"]).Values
      = some [lit "1a", lit "2b", lit "3c"] := by decide
  unfold Set.GoString sprintfSharpV
  rw [hv]
  simp only [stringsTrimPrefix_append, List.map]
  rw [strconvQuote_plain table (lit "1a") (by decide),
    strconvQuote_plain table (lit "2b") (by decide),
    strconvQuote_plain table (lit "3c") (by decide)]
  decide

/-- C18, as amended: `New()` and the nil set render to the same string under
`String`, and to the same string under `GoString` too, since `Values()` is nil for
both. -/
theorem String_GoString_nil_empty :
    (New []).String = Set.nil.String ∧ (New []).String = lit "[]" ∧
    (∀ table : Nat → Bool, (New []).GoString table = Set.nil.GoString table) ∧
    (∀ table : Nat → Bool, (New []).GoString table = lit "stringset.Set(nil)") ∧
    (New []).Values = none ∧ Set.nil.Values = none := by
  exact ⟨by decide, by decide, fun _ => rfl, fun _ => rfl, by decide, by decide⟩

/-- C18 fails as stated: under `GoString` the allocated empty set and the nil set
give the same string, `stringset.Set(nil)`. -/
theorem GoString_nil_empty_same :
    (New []).GoString (fun _ => false) = lit "stringset.Set(nil)" ∧
    Set.nil.GoString (fun _ => false) = lit "stringset.Set(nil)" ∧
    ¬ ∃ table : Nat → Bool, (New []).GoString table ≠ Set.nil.GoString table := by
  refine ⟨by decide, by decide, ?_⟩
  rintro ⟨table, h⟩
  exact h rfl

/-! ## The inputs `json.Unmarshal` takes: the decoder against the grammar -/

theorem isSpace_iff (c : Byte) :
    isSpace c = true ↔ (c.val = 0x20 ∨ c.val = 0x09 ∨ c.val = 0x0D ∨ c.val = 0x0A) := by
  simp [isSpace, or_assoc]

theorem skipSpace_split (data : List Byte) : ∃ w, IsWs w ∧ data = w ++ skipSpace data := by
  induction data with
  | nil => exact ⟨[], fun c hc => absurd hc (List.not_mem_nil c), rfl⟩
  | cons c t ih =>
    by_cases hc : isSpace c = true
    · obtain ⟨w, hw, ht⟩ := ih
      refine ⟨c :: w, ?_, ?_⟩
      · intro d hd
        rcases List.mem_cons.mp hd with rfl | hd
        · exact (isSpace_iff d).mp hc
        · exact hw d hd
      · simp only [skipSpace, hc, if_true, List.cons_append]
        rw [← ht]
    · exact ⟨[], fun c hc => absurd hc (List.not_mem_nil c), by simp [skipSpace, hc]⟩

theorem consume_eq (p data rest : List Byte) (h : consume p data = some rest) :
    data = p ++ rest := by
  unfold consume at h
  by_cases hp : p.isPrefixOf data = true
  · rw [if_pos hp] at h
    obtain ⟨t, ht⟩ := List.isPrefixOf_iff_prefix.mp hp
    subst ht
    rw [List.drop_left] at h
    rw [Option.some.inj h]
  · rw [if_neg hp] at h
    exact Option.noConfusion h

theorem map_succ_eq_some (o : Option Nat) (k : Nat) (h : o.map (· + 1) = some k) :
    ∃ k', o = some k' ∧ k = k' + 1 := by
  cases o with
  | none => exact Option.noConfusion h
  | some k' => exact ⟨k', rfl, (Option.some.inj h).symm⟩

theorem hexVal_isSome (c : Byte) (h : (hexVal c).isSome = true) : IsHex c := by
  unfold hexVal at h
  unfold IsHex
  split_ifs at h with h1 h2 h3
  · exact Or.inl h1
  · exact Or.inr (Or.inl h2)
  · exact Or.inr (Or.inr h3)
  · exact Bool.noConfusion h

theorem scanString_escU_zero (t : List Byte) (k : Nat)
    (h : scanString (.escU 0) t = some k) :
    ∃ c t' k', t = c :: t' ∧ IsHex c ∧ scanString .inString t' = some k' ∧ k = k' + 1 := by
  cases t with
  | nil => simp [scanString] at h
  | cons c t' =>
    rw [scanString] at h
    by_cases hc : (hexVal c).isSome = true
    · rw [if_pos hc] at h
      obtain ⟨k', hk', hk⟩ := map_succ_eq_some _ _ h
      exact ⟨c, t', k', rfl, hexVal_isSome c hc, hk', hk⟩
    · rw [if_neg hc] at h
      exact Option.noConfusion h

theorem scanString_escU_succ (j : Nat) (t : List Byte) (k : Nat)
    (h : scanString (.escU (j + 1)) t = some k) :
    ∃ c t' k', t = c :: t' ∧ IsHex c ∧ scanString (.escU j) t' = some k' ∧ k = k' + 1 := by
  cases t with
  | nil => simp [scanString] at h
  | cons c t' =>
    rw [scanString] at h
    by_cases hc : (hexVal c).isSome = true
    · rw [if_pos hc] at h
      obtain ⟨k', hk', hk⟩ := map_succ_eq_some _ _ h
      exact ⟨c, t', k', rfl, hexVal_isSome c hc, hk', hk⟩
    · rw [if_neg hc] at h
      exact Option.noConfusion h

theorem scanString_sound (k : Nat) :
    ∀ t : List Byte, scanString .inString t = some k →
      ∃ body rest, t = body ++ 0x22 :: rest ∧ body.length = k ∧ StrChars body := by
  induction k using Nat.strong_induction_on with
  | _ k ih =>
    intro t h
    cases t with
    | nil => simp [scanString] at h
    | cons c t' =>
      rw [scanString] at h
      by_cases hq : c.val = 0x22
      · rw [if_pos hq] at h
        have hc : c = 0x22 := Fin.ext hq
        subst hc
        exact ⟨[], t', rfl, Option.some.inj h, StrChars.nil⟩
      rw [if_neg hq] at h
      by_cases hb : c.val = 0x5C
      · rw [if_pos hb] at h
        have hc : c = 0x5C := Fin.ext hb
        subst hc
        obtain ⟨k1, hk1, hk⟩ := map_succ_eq_some _ _ h
        cases t' with
        | nil => simp [scanString] at hk1
        | cons e t2 =>
          rw [scanString] at hk1
          by_cases he : e.val = 0x62 ∨ e.val = 0x66 ∨ e.val = 0x6E ∨ e.val = 0x72 ∨
              e.val = 0x74 ∨ e.val = 0x5C ∨ e.val = 0x2F ∨ e.val = 0x22
          · rw [if_pos he] at hk1
            obtain ⟨k2, hk2, hk12⟩ := map_succ_eq_some _ _ hk1
            obtain ⟨body, rest, ht, hlen, hbody⟩ := ih k2 (by omega) t2 hk2
            refine ⟨0x5C :: e :: body, rest, by rw [ht]; rfl, by simp [hlen]; omega,
              StrChars.escape e body (by omega) hbody⟩
          · rw [if_neg he] at hk1
            by_cases hu : e.val = 0x75
            · rw [if_pos hu] at hk1
              have heu : e = 0x75 := Fin.ext hu
              subst heu
              obtain ⟨k2, hk2, hk12⟩ := map_succ_eq_some _ _ hk1
              obtain ⟨h1, t3, k3, ht3, hh1, hk3, hk23⟩ := scanString_escU_succ 2 t2 k2 hk2
              obtain ⟨h2, t4, k4, ht4, hh2, hk4, hk34⟩ := scanString_escU_succ 1 t3 k3 hk3
              obtain ⟨h3, t5, k5, ht5, hh3, hk5, hk45⟩ := scanString_escU_succ 0 t4 k4 hk4
              obtain ⟨h4, t6, k6, ht6, hh4, hk6, hk56⟩ := scanString_escU_zero t5 k5 hk5
              obtain ⟨body, rest, ht, hlen, hbody⟩ := ih k6 (by omega) t6 hk6
              refine ⟨0x5C :: 0x75 :: h1 :: h2 :: h3 :: h4 :: body, rest, ?_, ?_,
                StrChars.unicode h1 h2 h3 h4 body hh1 hh2 hh3 hh4 hbody⟩
              · rw [ht3, ht4, ht5, ht6, ht]
                rfl
              · simp [hlen]
                omega
            · rw [if_neg hu] at hk1
              exact Option.noConfusion hk1
      rw [if_neg hb] at h
      by_cases hl : c.val < 0x20
      · rw [if_pos hl] at h
        exact Option.noConfusion h
      rw [if_neg hl] at h
      obtain ⟨k1, hk1, hk⟩ := map_succ_eq_some _ _ h
      obtain ⟨body, rest, ht, hlen, hbody⟩ := ih k1 (by omega) t' hk1
      exact ⟨c :: body, rest, by rw [ht]; rfl, by simp [hlen]; omega,
        StrChars.plain c body (by omega) hq hb hbody⟩

theorem decodeElem_sound (data : List Byte) (s : Str) (rest : List Byte)
    (h : decodeElem data = some (s, rest)) : ∃ e, IsElem e ∧ data = e ++ rest := by
  cases data with
  | nil => simp [decodeElem] at h
  | cons c t =>
    unfold decodeElem at h
    by_cases hq : c.val = 0x22
    · simp only [hq, if_true] at h
      have hc : c = 0x22 := Fin.ext hq
      subst hc
      cases hs : scanString .inString t with
      | none => simp [hs] at h
      | some k =>
        simp only [hs] at h
        obtain ⟨body, r, ht, hlen, hbody⟩ := scanString_sound k t hs
        cases hu : unquote (t.take k) with
        | none => simp [hu] at h
        | some s' =>
          simp only [hu, Option.some.injEq, Prod.mk.injEq] at h
          refine ⟨0x22 :: (body ++ [0x22]), IsElem.string body hbody, ?_⟩
          rw [← h.2, ht, ← hlen, drop_length_succ]
          simp
    · simp only [hq, if_false] at h
      cases hc : consume (lit "null") (c :: t) with
      | none => simp [hc] at h
      | some r =>
        simp only [hc, Option.some.injEq, Prod.mk.injEq] at h
        refine ⟨lit "null", IsElem.null, ?_⟩
        rw [← h.2]
        exact consume_eq _ _ _ hc

theorem decodeElems_sound (n : Nat) :
    ∀ (data : List Byte) (l : List Str) (rest : List Byte),
      decodeElems n data = some (l, rest) →
      ∃ body, IsElems body ∧ data = body ++ 0x5D :: rest := by
  induction n with
  | zero =>
    intro data l rest h
    simp [decodeElems] at h
  | succ n ih =>
    intro data l rest h
    rw [decodeElems] at h
    cases he : decodeElem data with
    | none => simp [he] at h
    | some p =>
      obtain ⟨s, r1⟩ := p
      simp only [he] at h
      obtain ⟨e, hE, hdata⟩ := decodeElem_sound data s r1 he
      obtain ⟨w1, hw1, hr1⟩ := skipSpace_split r1
      cases hsk : skipSpace r1 with
      | nil => simp [hsk] at h
      | cons c rest1 =>
        simp only [hsk] at h
        rw [hsk] at hr1
        by_cases hcomma : c.val = 0x2C
        · simp only [hcomma, if_true] at h
          have hc : c = 0x2C := Fin.ext hcomma
          subst hc
          obtain ⟨w2, hw2, hrest1⟩ := skipSpace_split rest1
          cases hrec : decodeElems n (skipSpace rest1) with
          | none => simp [hrec] at h
          | some q =>
            obtain ⟨l', rest2⟩ := q
            simp only [hrec, Option.some.injEq, Prod.mk.injEq] at h
            obtain ⟨body', hB, hbody'⟩ := ih _ _ _ hrec
            refine ⟨e ++ (w1 ++ 0x2C :: (w2 ++ body')), IsElems.more e w1 w2 body' hE hw1 hw2 hB,
              ?_⟩
            rw [hdata, hr1, hrest1, hbody', h.2]
            simp
        · simp only [hcomma, if_false] at h
          by_cases hclose : c.val = 0x5D
          · simp only [hclose, if_true, Option.some.injEq, Prod.mk.injEq] at h
            have hc : c = 0x5D := Fin.ext hclose
            subst hc
            refine ⟨e ++ w1, IsElems.last e w1 hE hw1, ?_⟩
            rw [hdata, hr1, h.2]
            simp
          · simp [hclose] at h

theorem isWs_of_skipSpace_nil (data : List Byte) (h : skipSpace data = []) : IsWs data := by
  obtain ⟨w, hw, hd⟩ := skipSpace_split data
  rw [h, List.append_nil] at hd
  rw [hd]
  exact hw

theorem jsonUnmarshal_sound (data : List Byte) (strs : Option (List Str))
    (h : jsonUnmarshal data = .ok strs) : Accepted data := by
  unfold jsonUnmarshal at h
  obtain ⟨w1, hw1, hdata⟩ := skipSpace_split data
  cases hsk : skipSpace data with
  | nil => simp [hsk] at h
  | cons c t =>
    simp only [hsk] at h
    rw [hsk] at hdata
    by_cases hopen : c.val = 0x5B
    · simp only [hopen, if_true] at h
      have hc : c = 0x5B := Fin.ext hopen
      subst hc
      obtain ⟨w2, hw2, ht⟩ := skipSpace_split t
      cases hsk2 : skipSpace t with
      | nil => simp [hsk2] at h
      | cons d t1 =>
        simp only [hsk2] at h
        rw [hsk2] at ht
        by_cases hclose : d.val = 0x5D
        · simp only [hclose, if_true] at h
          have hd : d = 0x5D := Fin.ext hclose
          subst hd
          by_cases hend : skipSpace t1 = []
          · rw [hdata, ht]
            exact Accepted.empty w1 w2 t1 hw1 hw2 (isWs_of_skipSpace_nil t1 hend)
          · simp [hend] at h
        · simp only [hclose, if_false] at h
          cases hrec : decodeElems (t1.length + 1) (d :: t1) with
          | none => simp [hrec] at h
          | some q =>
            obtain ⟨l, rest⟩ := q
            rw [List.length_cons, hrec] at h
            simp only [] at h
            obtain ⟨body, hB, hbody⟩ := decodeElems_sound _ _ _ _ hrec
            by_cases hend : skipSpace rest = []
            · rw [hdata, ht, hbody]
              exact Accepted.array w1 w2 body rest hw1 hw2 hB (isWs_of_skipSpace_nil rest hend)
            · simp [hend] at h
    · simp only [hopen, if_false] at h
      cases hc : consume (lit "null") (c :: t) with
      | none => simp [hc] at h
      | some rest =>
        simp only [hc] at h
        by_cases hend : skipSpace rest = []
        · rw [hdata, consume_eq _ _ _ hc]
          exact Accepted.null w1 rest hw1 (isWs_of_skipSpace_nil rest hend)
        · simp [hend] at h

theorem skipSpace_ws_append (w t : List Byte) (hw : IsWs w) :
    skipSpace (w ++ t) = skipSpace t := by
  induction w with
  | nil => rfl
  | cons c w ih =>
    have hc : isSpace c = true := (isSpace_iff c).mpr (hw c (List.mem_cons_self _ _))
    rw [List.cons_append, skipSpace, if_pos hc]
    exact ih (fun d hd => hw d (List.mem_cons_of_mem _ hd))

theorem skipSpace_ws (w : List Byte) (hw : IsWs w) : skipSpace w = [] := by
  have h := skipSpace_ws_append w [] hw
  rw [List.append_nil] at h
  exact h

theorem skipSpace_cons_of_not (c : Byte) (t : List Byte) (h : isSpace c = false) :
    skipSpace (c :: t) = c :: t := by
  rw [skipSpace]
  simp [h]

theorem hexVal_isSome_of_isHex (c : Byte) (h : IsHex c) : ∃ d, hexVal c = some d ∧ d < 16 := by
  unfold hexVal
  rcases h with h | h | h
  · exact ⟨c.val - 0x30, by rw [if_pos h], by omega⟩
  · have h1 : ¬ (0x30 ≤ c.val ∧ c.val ≤ 0x39) := by omega
    exact ⟨c.val - 0x61 + 10, by rw [if_neg h1, if_pos h], by omega⟩
  · have h1 : ¬ (0x30 ≤ c.val ∧ c.val ≤ 0x39) := by omega
    have h2 : ¬ (0x61 ≤ c.val ∧ c.val ≤ 0x66) := by omega
    exact ⟨c.val - 0x41 + 10, by rw [if_neg h1, if_neg h2, if_pos h], by omega⟩

theorem scanString_hex (j : Nat) (c : Byte) (t : List Byte) (h : IsHex c) :
    scanString (.escU j) (c :: t)
      = (scanString (match j with
          | 0 => .inString
          | k + 1 => .escU k) t).map (· + 1) := by
  obtain ⟨d, hd, _⟩ := hexVal_isSome_of_isHex c h
  cases j <;> simp [scanString, hd]

theorem scanString_complete (body : List Byte) (hb : StrChars body) (rest : List Byte) :
    scanString .inString (body ++ 0x22 :: rest) = some body.length := by
  induction hb with
  | nil => simp [scanString, Fin.coe_ofNat_eq_mod]
  | plain c t h1 h2 h3 _ ih =>
    have h4 : ¬ c.val < 0x20 := by omega
    rw [List.cons_append, scanString]
    simp [h2, h3, h4, ih]
  | escape e t he _ ih =>
    have he' : e.val = 0x62 ∨ e.val = 0x66 ∨ e.val = 0x6E ∨ e.val = 0x72 ∨ e.val = 0x74 ∨
        e.val = 0x5C ∨ e.val = 0x2F ∨ e.val = 0x22 := by omega
    rw [List.cons_append, List.cons_append, scanString]
    simp only [Fin.coe_ofNat_eq_mod, Nat.reduceMod, Nat.reduceEqDiff, if_false, if_true]
    rw [scanString, if_pos he', ih]
    rfl
  | unicode h1 h2 h3 h4 t hh1 hh2 hh3 hh4 _ ih =>
    simp only [List.cons_append]
    rw [scanString]
    simp only [Fin.coe_ofNat_eq_mod, Nat.reduceMod, Nat.reduceEqDiff, if_false, if_true]
    rw [scanString]
    simp only [Fin.coe_ofNat_eq_mod, Nat.reduceMod, Nat.reduceEqDiff, if_false, if_true,
      false_or]
    rw [scanString_hex 3 h1 _ hh1, scanString_hex 2 h2 _ hh2, scanString_hex 1 h3 _ hh3,
      scanString_hex 0 h4 _ hh4, ih]
    rfl

theorem StrChars_tail_of_high (y : Byte) (s : List Byte) (hy : 0x80 ≤ y.val)
    (h : StrChars (y :: s)) : StrChars s := by
  cases h with
  | plain _ _ _ _ _ ht => exact ht
  | escape e t' _ _ => exact absurd hy (by decide)
  | unicode h1 h2 h3 h4 t' _ _ _ _ _ => exact absurd hy (by decide)

theorem StrChars_of_high_append (chunk t : List Byte) (hc : ∀ y ∈ chunk, 0x80 ≤ y.val)
    (h : StrChars (chunk ++ t)) : StrChars t := by
  induction chunk with
  | nil => exact h
  | cons y x ih =>
    exact ih (fun z hz => hc z (List.mem_cons_of_mem _ hz))
      (StrChars_tail_of_high y _ (hc y (List.mem_cons_self _ _)) h)

theorem decodeRune_size_pos (c : Byte) (t : List Byte) (hc : 0x80 ≤ c.val) :
    ∃ chunk t', c :: t = chunk ++ t' ∧ chunk.length = (decodeRune (c :: t)).2 ∧
      chunk ≠ [] ∧ ∀ y ∈ chunk, 0x80 ≤ y.val := by
  by_cases h1 : (decodeRune (c :: t)).2 = 1
  · refine ⟨[c], t, rfl, by rw [h1]; rfl, by simp, ?_⟩
    intro y hy
    rw [List.mem_singleton] at hy
    rw [hy]
    exact hc
  · obtain ⟨chunk, t', hsplit, hlen, hhigh, _, _, hne⟩ := decodeRune_valid c t hc h1
    exact ⟨chunk, t', hsplit, hlen, hne, hhigh⟩

theorem getu4_some (s : List Byte) (r : Nat) (h : getu4 s = some r) :
    ∃ g1 g2 g3 g4 t, s = 0x5C :: 0x75 :: g1 :: g2 :: g3 :: g4 :: t := by
  unfold getu4 at h
  split at h
  · rename_i b u g1 g2 g3 g4 t
    by_cases hbu : b.val = 0x5C ∧ u.val = 0x75
    · have hb : b = 0x5C := Fin.ext hbu.1
      have hu : u = 0x75 := Fin.ext hbu.2
      exact ⟨g1, g2, g3, g4, t, by rw [hb, hu]⟩
    · rw [if_neg hbu] at h
      exact Option.noConfusion h
  · exact Option.noConfusion h

theorem getu4_hex (h1 h2 h3 h4 : Byte) (t : List Byte) (hh1 : IsHex h1) (hh2 : IsHex h2)
    (hh3 : IsHex h3) (hh4 : IsHex h4) :
    ∃ rr, getu4 (0x5C :: 0x75 :: h1 :: h2 :: h3 :: h4 :: t) = some rr := by
  obtain ⟨d1, e1, _⟩ := hexVal_isSome_of_isHex h1 hh1
  obtain ⟨d2, e2, _⟩ := hexVal_isSome_of_isHex h2 hh2
  obtain ⟨d3, e3, _⟩ := hexVal_isSome_of_isHex h3 hh3
  obtain ⟨d4, e4, _⟩ := hexVal_isSome_of_isHex h4 hh4
  refine ⟨((d1 * 16 + d2) * 16 + d3) * 16 + d4, ?_⟩
  simp [getu4, e1, e2, e3, e4, Fin.coe_ofNat_eq_mod]

theorem StrChars_after_unicode (g1 g2 g3 g4 : Byte) (t : List Byte)
    (h : StrChars (0x5C :: 0x75 :: g1 :: g2 :: g3 :: g4 :: t)) : StrChars t := by
  cases h with
  | plain _ _ _ _ h3 _ => exact absurd rfl h3
  | escape _ _ he _ => simp [Fin.coe_ofNat_eq_mod] at he
  | unicode _ _ _ _ _ _ _ _ _ ht => exact ht

theorem utf16DecodeRune_ne (rr : Nat) (o : Option Nat)
    (h : utf16DecodeRune rr o ≠ RuneError) : ∃ r2, o = some r2 := by
  cases o with
  | none => exact absurd rfl h
  | some r2 => exact ⟨r2, rfl⟩

theorem unquoteStep_complete (c : Byte) (t : List Byte) (h : StrChars (c :: t)) :
    ∃ out rest, unquoteStep c t = some (out, rest) ∧ StrChars rest ∧
      rest.length ≤ t.length := by
  cases h with
  | plain _ _ h1 h2 h3 ht =>
    have h4 : ¬ c.val < 0x20 := by omega
    by_cases h5 : c.val < 0x80
    · exact ⟨[c], t, by simp [unquoteStep, h2, h3, h4, h5], ht, Nat.le_refl _⟩
    · obtain ⟨chunk, t', hsplit, hlen, hne, hhigh⟩ := decodeRune_size_pos c t (by omega)
      have hdrop : (c :: t).drop (decodeRune (c :: t)).2 = t' := by
        rw [← hlen, hsplit, List.drop_left]
      refine ⟨encodeRune (decodeRune (c :: t)).1, t', ?_, ?_, ?_⟩
      · simp only [unquoteStep, h2, h3, h4, h5, if_false, false_or, hdrop]
      · apply StrChars_of_high_append chunk t' hhigh
        rw [← hsplit]
        exact StrChars.plain c t h1 h2 h3 ht
      · have hl := congrArg List.length hsplit
        rw [List.length_append, List.length_cons] at hl
        have hpos : 0 < chunk.length := List.length_pos.mpr hne
        omega
  | escape e t he ht =>
    have hx : ∃ out, unquoteStep 0x5C (e :: t) = some (out, t) := by
      rcases he with he | he | he | he | he | he | he | he <;>
        simp [unquoteStep, Fin.coe_ofNat_eq_mod, he]
    obtain ⟨out, hout⟩ := hx
    exact ⟨out, t, hout, ht, by simp⟩
  | unicode h1 h2 h3 h4 t hh1 hh2 hh3 hh4 ht =>
    obtain ⟨rr, hrr⟩ := getu4_hex h1 h2 h3 h4 t hh1 hh2 hh3 hh4
    by_cases hs : 0xD800 ≤ rr ∧ rr < 0xE000
    · by_cases hd : utf16DecodeRune rr (getu4 t) ≠ RuneError
      · obtain ⟨r2, hr2⟩ := utf16DecodeRune_ne rr _ hd
        obtain ⟨g1, g2, g3, g4, t7, ht7⟩ := getu4_some t r2 hr2
        refine ⟨encodeRune (utf16DecodeRune rr (getu4 t)), t.drop 6, ?_, ?_, ?_⟩
        · simp [unquoteStep, Fin.coe_ofNat_eq_mod, hrr, hs, hd]
        · rw [ht7] at ht ⊢
          exact StrChars_after_unicode g1 g2 g3 g4 t7 ht
        · simp
          omega
      · refine ⟨encodeRune RuneError, t, ?_, ht, by simp only [List.length_cons]; omega⟩
        simp [unquoteStep, Fin.coe_ofNat_eq_mod, hrr, hs, hd]
    · refine ⟨encodeRune rr, t, ?_, ht, by simp only [List.length_cons]; omega⟩
      simp [unquoteStep, Fin.coe_ofNat_eq_mod, hrr, hs]

theorem unquoteLoop_complete (n : Nat) :
    ∀ body : List Byte, body.length ≤ n → StrChars body → ∃ s, unquoteLoop n body = some s := by
  induction n with
  | zero =>
    intro body hn _
    rw [List.length_eq_zero.mp (Nat.le_zero.mp hn)]
    exact ⟨[], rfl⟩
  | succ n ih =>
    intro body hn hb
    cases body with
    | nil => exact ⟨[], rfl⟩
    | cons c t =>
      obtain ⟨out, rest, hstep, hrest, hlen⟩ := unquoteStep_complete c t hb
      simp only [List.length_cons] at hn
      obtain ⟨s, hs⟩ := ih rest (by omega) hrest
      exact ⟨out ++ s, by rw [unquoteLoop, hstep]; simp [hs]⟩

theorem consume_append (p rest : List Byte) : consume p (p ++ rest) = some rest := by
  unfold consume
  have h : p.isPrefixOf (p ++ rest) = true := by
    rw [List.isPrefixOf_iff_prefix]
    exact List.prefix_append p rest
  rw [if_pos h, List.drop_left]

theorem decodeElem_complete (e : List Byte) (he : IsElem e) (rest : List Byte) :
    ∃ s, decodeElem (e ++ rest) = some (s, rest) := by
  cases he with
  | string body hb =>
    obtain ⟨s, hs⟩ := unquoteLoop_complete body.length body (Nat.le_refl _) hb
    have hscan := scanString_complete body hb rest
    have hshape : (0x22 : Byte) :: (body ++ [0x22]) ++ rest
        = (0x22 : Byte) :: (body ++ (0x22 : Byte) :: rest) := by simp
    have hval : ((0x22 : Byte)).val = 0x22 := rfl
    refine ⟨s, ?_⟩
    rw [hshape]
    simp only [decodeElem, hval, if_true, hscan, List.take_left, unquote, hs, drop_length_succ]
  | null =>
    refine ⟨[], ?_⟩
    have hshape : ∃ t, lit "null" ++ rest = (0x6E : Byte) :: t := ⟨_, rfl⟩
    obtain ⟨t, ht⟩ := hshape
    have hc := consume_append (lit "null") rest
    rw [ht] at hc ⊢
    have hval : ((0x6E : Byte)).val ≠ 0x22 := by decide
    simp only [decodeElem, hval, if_false, hc]

theorem IsElem_head (e : List Byte) (he : IsElem e) :
    ∃ c t, e = c :: t ∧ isSpace c = false ∧ c.val ≠ 0x5D := by
  cases he with
  | string body _ => exact ⟨0x22, body ++ [0x22], rfl, by decide, by decide⟩
  | null => exact ⟨0x6E, _, rfl, by decide, by decide⟩

theorem IsElems_head (body : List Byte) (hb : IsElems body) :
    ∃ c t, body = c :: t ∧ isSpace c = false ∧ c.val ≠ 0x5D := by
  cases hb with
  | last e w he _ =>
    obtain ⟨c, t, hct, hc, hc'⟩ := IsElem_head e he
    exact ⟨c, t ++ w, by rw [hct]; rfl, hc, hc'⟩
  | more e w1 w2 rest he _ _ _ =>
    obtain ⟨c, t, hct, hc, hc'⟩ := IsElem_head e he
    exact ⟨c, t ++ (w1 ++ 0x2C :: (w2 ++ rest)), by rw [hct]; rfl, hc, hc'⟩

theorem decodeElems_complete (body : List Byte) (hb : IsElems body) :
    ∀ (n : Nat) (rest : List Byte), body.length ≤ n →
      ∃ l, decodeElems n (body ++ 0x5D :: rest) = some (l, rest) := by
  induction hb with
  | last e w he hw =>
    intro n rest hn
    obtain ⟨c, t, hct, _, _⟩ := IsElem_head e he
    cases n with
    | zero =>
      rw [hct] at hn
      simp at hn
    | succ n =>
      obtain ⟨s, hs⟩ := decodeElem_complete e he (w ++ 0x5D :: rest)
      refine ⟨[s], ?_⟩
      rw [List.append_assoc, decodeElems, hs]
      simp only []
      rw [skipSpace_ws_append w _ hw, skipSpace_cons_of_not _ _ (by decide)]
      simp [Fin.coe_ofNat_eq_mod]
  | more e w1 w2 rest' he hw1 hw2 hrest ih =>
    intro n rest hn
    obtain ⟨c, t, hct, _, _⟩ := IsElem_head e he
    cases n with
    | zero =>
      rw [hct] at hn
      simp at hn
    | succ n =>
      obtain ⟨s, hs⟩ := decodeElem_complete e he (w1 ++ 0x2C :: (w2 ++ (rest' ++ 0x5D :: rest)))
      obtain ⟨c', t', hct', hc', _⟩ := IsElems_head rest' hrest
      have hlen : rest'.length ≤ n := by
        rw [hct] at hn
        simp only [List.length_append, List.length_cons] at hn
        omega
      obtain ⟨l, hl⟩ := ih n rest hlen
      have hshape : e ++ (w1 ++ 0x2C :: (w2 ++ rest')) ++ 0x5D :: rest
          = e ++ (w1 ++ 0x2C :: (w2 ++ (rest' ++ 0x5D :: rest))) := by simp
      have hskip : skipSpace (w2 ++ (rest' ++ 0x5D :: rest)) = rest' ++ 0x5D :: rest := by
        rw [skipSpace_ws_append w2 _ hw2, hct', List.cons_append,
          skipSpace_cons_of_not _ _ hc']
      refine ⟨s :: l, ?_⟩
      rw [hshape, decodeElems, hs]
      simp only []
      rw [skipSpace_ws_append w1 _ hw1, skipSpace_cons_of_not _ _ (by decide)]
      simp only [Fin.coe_ofNat_eq_mod, Nat.reduceMod, if_true]
      rw [hskip, hl]

theorem jsonUnmarshal_complete (data : List Byte) (h : Accepted data) :
    ∃ strs, jsonUnmarshal data = .ok strs := by
  cases h with
  | null w1 w2 hw1 hw2 =>
    refine ⟨none, ?_⟩
    have hshape : ∃ t, lit "null" ++ w2 = (0x6E : Byte) :: t := ⟨_, rfl⟩
    obtain ⟨t, ht⟩ := hshape
    have hc := consume_append (lit "null") w2
    rw [ht] at hc ⊢
    have hval : ((0x6E : Byte)).val ≠ 0x5B := by decide
    unfold jsonUnmarshal
    rw [skipSpace_ws_append w1 _ hw1, skipSpace_cons_of_not _ _ (by decide)]
    simp only [hval, if_false, hc, skipSpace_ws w2 hw2, if_true]
  | empty w1 w2 w3 hw1 hw2 hw3 =>
    refine ⟨some [], ?_⟩
    unfold jsonUnmarshal
    rw [skipSpace_ws_append w1 _ hw1, skipSpace_cons_of_not _ _ (by decide)]
    have hval : ((0x5B : Byte)).val = 0x5B := rfl
    have hval2 : ((0x5D : Byte)).val = 0x5D := rfl
    simp only [hval, if_true]
    rw [skipSpace_ws_append w2 _ hw2, skipSpace_cons_of_not _ _ (by decide)]
    simp only [hval2, if_true, skipSpace_ws w3 hw3]
  | array w1 w2 body w3 hw1 hw2 hb hw3 =>
    obtain ⟨c, t, hct, hc, hc'⟩ := IsElems_head body hb
    obtain ⟨l, hl⟩ := decodeElems_complete body hb (body ++ 0x5D :: w3).length w3
      (by simp)
    refine ⟨some l, ?_⟩
    unfold jsonUnmarshal
    rw [skipSpace_ws_append w1 _ hw1, skipSpace_cons_of_not _ _ (by decide)]
    have hval : ((0x5B : Byte)).val = 0x5B := rfl
    simp only [hval, if_true]
    rw [skipSpace_ws_append w2 _ hw2]
    rw [hct, List.cons_append] at hl ⊢
    rw [skipSpace_cons_of_not _ _ hc]
    simp only [hc', if_false, hl, skipSpace_ws w3 hw3, if_true]

theorem UnmarshalJSON_no_error_iff (h : Set) (data : List Byte) :
    (h.UnmarshalJSON data).2 = none ↔ ∃ strs, jsonUnmarshal data = .ok strs := by
  unfold Set.UnmarshalJSON
  cases hd : jsonUnmarshal data with
  | error err => simp
  | ok strs => cases strs <;> simp

/-- C13, as amended: `UnmarshalJSON` returns an error on every input except, white
space aside, `null` and the arrays whose elements are each a string literal or
`null`; so it does for an array with an element that is neither, for every other
JSON shape and for malformed input. -/
theorem UnmarshalJSON_error_iff :
    (∀ (h : Set) (data : List Byte), (h.UnmarshalJSON data).2 ≠ none ↔ ¬ Accepted data) ∧
    (Set.nil.UnmarshalJSON (lit "[\"1\",\"2\",3]")).2 = some .invalid ∧
    (Set.nil.UnmarshalJSON (lit "[\"1\",true]")).2 = some .invalid ∧
    (Set.nil.UnmarshalJSON (lit "[[\"1\"]]")).2 = some .invalid ∧
    (Set.nil.UnmarshalJSON (lit "[\x7b\x7d]")).2 = some .invalid ∧
    (Set.nil.UnmarshalJSON (lit "\"1\"")).2 = some .invalid ∧
    (Set.nil.UnmarshalJSON (lit "\x7b\"1\":\"2\"\x7d")).2 = some .invalid ∧
    (Set.nil.UnmarshalJSON (lit "12")).2 = some .invalid ∧
    (Set.nil.UnmarshalJSON (lit "true")).2 = some .invalid ∧
    (Set.nil.UnmarshalJSON (lit "[\"1\",")).2 = some .invalid ∧
    (Set.nil.UnmarshalJSON (lit "[\"1\",]")).2 = some .invalid ∧
    (Set.nil.UnmarshalJSON (lit "[\"1\" \"2\"]")).2 = some .invalid ∧
    (Set.nil.UnmarshalJSON (lit "[\"\\x\"]")).2 = some .invalid ∧
    (Set.nil.UnmarshalJSON (lit "nul")).2 = some .invalid ∧
    (Set.nil.UnmarshalJSON (lit "")).2 = some .invalid := by
  refine ⟨fun h data => ?_, by decide, by decide, by decide, by decide, by decide, by decide,
    by decide, by decide, by decide, by decide, by decide, by decide, by decide, by decide⟩
  rw [not_iff_not, UnmarshalJSON_no_error_iff]
  constructor
  · rintro ⟨strs, hs⟩
    exact jsonUnmarshal_sound data strs hs
  · exact jsonUnmarshal_complete data

/-- C13 fails as stated: the arrays `[null]` and `["a",null]` hold an element that
is not a string, and `UnmarshalJSON` returns no error on them; the element
decodes to the empty string. -/
theorem UnmarshalJSON_null_element :
    (Set.nil.UnmarshalJSON (lit "[null]")).2 = none ∧
    (Set.nil.UnmarshalJSON (lit "[null]")).1.Values = some [lit ""] ∧
    (Set.nil.UnmarshalJSON (lit "[\"a\",null]")).2 = none ∧
    (Set.nil.UnmarshalJSON (lit "[\"a\",null]")).1.Values = some [lit "", lit "a"] := by
  decide

/-! ## The text `MarshalJSON` and `GoString` write -/

theorem encodeRune_ascii_length (c : Nat) (h : c ≤ 0x7F) : (encodeRune c).length = 1 := by
  simp [encodeRune, h]

theorem quoteLoop_printable (table : Nat → Bool) (n : Nat) :
    ∀ m : List Byte, m.length ≤ n → ∀ k, m.length ≤ k → printableLoop table k m = true →
      quoteLoop table n m = m := by
  induction n with
  | zero =>
    intro m hn _ _ _
    rw [List.length_eq_zero.mp (Nat.le_zero.mp hn)]
    rfl
  | succ n ih =>
    intro m hn k hk hp
    cases m with
    | nil => rfl
    | cons b rest =>
      cases k with
      | zero => simp at hk
      | succ k =>
        simp only [List.length_cons] at hn hk
        rw [printableLoop] at hp
        by_cases hlt : b.val < 0x80
        · rw [if_pos hlt] at hp
          simp only [Bool.and_eq_true, decide_eq_true_eq, bne_iff_ne, ne_eq] at hp
          obtain ⟨⟨⟨⟨h1, h2⟩, h3⟩, h4⟩, hrest⟩ := hp
          have hne : ¬ (b.val = RuneError) := by
            unfold RuneError
            omega
          have hq : ¬ (b.val = 0x22 ∨ b.val = 0x5C) := by omega
          have hpr : isPrint table b.val = true := by
            have h5 : b.val ≤ 0xFF := by omega
            simp only [isPrint, h5, if_true]
            rw [if_pos ⟨h1, h2⟩]
          have he : encodeRune b.val = [b] := by
            have h5 : b.val ≤ 0x7F := by omega
            simp [encodeRune, h5, byte_val]
          have hr := ih rest (by omega) k (by omega) hrest
          rw [quoteLoop]
          simp only [hlt, if_true, hne, and_false, if_false, appendEscapedRune, hq, hpr, he,
            List.drop_one, List.tail_cons, hr]
          rfl
        · rw [if_neg hlt] at hp
          by_cases hsz : (decodeRune (b :: rest)).2 = 1
          · rw [if_pos hsz] at hp
            exact Bool.noConfusion hp
          · rw [if_neg hsz] at hp
            simp only [Bool.and_eq_true] at hp
            obtain ⟨hpr, hrest⟩ := hp
            obtain ⟨chunk, t, hsplit, hlen, _, henc, _, hne⟩ :=
              decodeRune_valid b rest (by omega) hsz
            have hdrop : (b :: rest).drop (decodeRune (b :: rest)).2 = t := by
              rw [← hlen, hsplit, List.drop_left]
            have hbig : ¬ ((decodeRune (b :: rest)).1 = 0x22 ∨
                (decodeRune (b :: rest)).1 = 0x5C) := by
              intro hc
              have hle : (decodeRune (b :: rest)).1 ≤ 0x7F := by omega
              have h1 := encodeRune_ascii_length _ hle
              rw [henc, hlen] at h1
              exact hsz h1
            have hw : ¬ ((decodeRune (b :: rest)).2 = 1 ∧
                (decodeRune (b :: rest)).1 = RuneError) := fun h => hsz h.1
            have htl : t.length ≤ n := by
              have hl := congrArg List.length hsplit
              rw [List.length_append, List.length_cons] at hl
              have hpos : 0 < chunk.length := List.length_pos.mpr hne
              omega
            have htk : t.length ≤ k := by
              have hl := congrArg List.length hsplit
              rw [List.length_append, List.length_cons] at hl
              have hpos : 0 < chunk.length := List.length_pos.mpr hne
              omega
            rw [hdrop] at hrest
            have hr := ih t htl k htk hrest
            rw [quoteLoop]
            simp only [hlt, if_false, hw, appendEscapedRune, hbig, hpr, if_true, henc, hdrop, hr]
            exact hsplit.symm

theorem strconvQuote_printable (table : Nat → Bool) (m : Str) (hm : printable table m = true) :
    strconvQuote table m = doubleQuoted m := by
  unfold strconvQuote doubleQuoted
  rw [quoteLoop_printable table m.length m (Nat.le_refl _) m.length (Nat.le_refl _) hm]

theorem map_strconvQuote_printable (table : Nat → Bool) (l : List Str)
    (hl : ∀ m ∈ l, printable table m = true) :
    l.map (strconvQuote table) = l.map doubleQuoted := by
  apply List.map_congr_left
  intro m hm
  exact strconvQuote_printable table m (hl m hm)

theorem Set.GoString_eq (table : Nat → Bool) (s : Set) :
    s.GoString table =
      if s.Len = 0 then lit "stringset.Set(nil)"
      else lit "stringset.Set" ++ ([0x7B] ++
        List.intercalate (lit ", ") ((elems s.Values).map (strconvQuote table)) ++ [0x7D]) := by
  unfold Set.GoString sprintfSharpV
  simp only [stringsTrimPrefix_append]
  by_cases hl : s.Len = 0
  · rw [if_pos hl, Set.Values_of_eq s hl]
    rfl
  · rw [if_neg hl, Set.Values_of_ne s hl]
    rfl

theorem appendString_isLiteralOf (x : Str) (hx : validString x = true) :
    IsLiteralOf x (appendString x) := by
  obtain ⟨hscan, hunq⟩ :=
    appendStringLoop_roundtrip x.length x (Nat.le_refl _) x.length (Nat.le_refl _) hx
  have hq : scanString .inString [(0x22 : Byte)] = some 0 := by decide
  have hs := hscan [(0x22 : Byte)]
  rw [hq] at hs
  simp only [Option.map_some', Nat.zero_add] at hs
  obtain ⟨body, rest, hsplit, hlen, hbody⟩ := scanString_sound _ _ hs
  have hb : appendStringLoop x.length x = body :=
    (List.append_inj hsplit hlen.symm).1
  refine ⟨appendStringLoop x.length x, rfl, hb ▸ hbody, ?_⟩
  exact hunq _ (Nat.le_refl _)

theorem forall₂_isLiteralOf_map (l : List Str) (hl : ∀ m ∈ l, validString m = true) :
    List.Forall₂ IsLiteralOf l (l.map appendString) := by
  induction l with
  | nil => exact List.Forall₂.nil
  | cons x l ih =>
    exact List.Forall₂.cons (appendString_isLiteralOf x (hl x (List.mem_cons_self _ _)))
      (ih (fun m hm => hl m (List.mem_cons_of_mem _ hm)))

theorem appendStringLoop_safe (n : Nat) :
    ∀ m : List Byte, m.length ≤ n → (∀ b ∈ m, htmlSafe b = true) →
      appendStringLoop n m = m := by
  induction n with
  | zero =>
    intro m hn _
    rw [List.length_eq_zero.mp (Nat.le_zero.mp hn)]
    rfl
  | succ n ih =>
    intro m hn hm
    cases m with
    | nil => rfl
    | cons b rest =>
      have hb := hm b (List.mem_cons_self _ _)
      have hlt : b.val < 0x80 := by
        simp only [htmlSafe, Bool.and_eq_true, decide_eq_true_eq] at hb
        omega
      have hr := ih rest (by simpa using hn) (fun c hc => hm c (List.mem_cons_of_mem _ hc))
      rw [appendStringLoop]
      simp only [appendStringStep, hlt, if_true, hb, hr]
      rfl

theorem appendString_safe (m : Str) (hm : jsonSafe m = true) :
    appendString m = doubleQuoted m := by
  unfold appendString doubleQuoted
  rw [appendStringLoop_safe m.length m (Nat.le_refl _) (List.all_eq_true.mp hm)]

theorem Set.MarshalJSON_of_members (s : Set) (h : ∃ x : Str, s.Contains x = true) :
    s.MarshalJSON
      = .ok ([0x5B] ++ joinWith [0x2C] ((elems s.Values).map appendString) ++ [0x5D]) := by
  have hl : s.Len ≠ 0 := by
    intro h0
    obtain ⟨x, hx⟩ := h
    rw [(Set.Len_eq_zero_iff s).mp h0 x] at hx
    exact Bool.false_ne_true hx
  rw [Set.MarshalJSON_eq, joinWith_eq_intercalate, Set.Values_of_ne s hl]
  rfl

theorem Set.MarshalJSON_of_empty (s : Set) (h : ∀ x : Str, s.Contains x = false) :
    s.MarshalJSON = .ok (lit "null") := by
  rw [Set.MarshalJSON_eq, Set.Values_of_eq s ((Set.Len_eq_zero_iff s).mpr h)]
  rfl

theorem Set.elems_Values_strict (s : Set) :
    (elems s.Values).Pairwise (fun a b => strLess a b = true) := by
  rw [Set.elems_Values]
  exact sortStrings_strict _ s.range_nodup

theorem Set.mem_elems_Values (s : Set) (x : Str) :
    x ∈ elems s.Values ↔ s.Contains x = true := by
  rw [Set.elems_Values, Set.Contains_iff_mem]
  exact (sortStrings_perm _).mem_iff

/-- C11, as amended: `MarshalJSON` has no error and writes `null` for a set without
members, nil or allocated; for a set with members that are valid UTF-8 it writes
`[`, a JSON string literal for each member in ascending order with a comma
between consecutive ones, and `]`, a text that decodes to those members; members
of bytes that need no escape are written as they are between double quotes. -/
theorem MarshalJSON_output :
    (∀ s : Set, ∃ data, s.MarshalJSON = .ok data) ∧
    (∀ s : Set, (∀ x : Str, s.Contains x = false) → s.MarshalJSON = .ok (lit "null")) ∧
    (∀ s : Set, (∃ x : Str, s.Contains x = true) →
      (∀ m ∈ elems s.Values, validString m = true) →
      ∃ lits, s.MarshalJSON = .ok ([0x5B] ++ joinWith [0x2C] lits ++ [0x5D]) ∧
        List.Forall₂ IsLiteralOf (elems s.Values) lits ∧
        jsonUnmarshal ([0x5B] ++ joinWith [0x2C] lits ++ [0x5D]) = .ok (some (elems s.Values))) ∧
    (∀ s : Set, (∃ x : Str, s.Contains x = true) →
      (∀ m ∈ elems s.Values, jsonSafe m = true) →
      s.MarshalJSON
        = .ok ([0x5B] ++ joinWith [0x2C] ((elems s.Values).map doubleQuoted) ++ [0x5D])) ∧
    (∀ s : Set, (elems s.Values).Pairwise (fun a b => strLess a b = true) ∧
      ∀ x : Str, x ∈ elems s.Values ↔ s.Contains x = true) ∧
    (∀ s : Set, s.MarshalJSON = jsonMarshal s.Values) ∧
    Set.nil.MarshalJSON = .ok (lit "null") ∧
    (New []).MarshalJSON = .ok (lit "null") ∧
    (New [lit "1"]).MarshalJSON = .ok (lit "[\"1\"]") ∧
    (New [lit "2b", lit "1a", lit "3c"]).MarshalJSON = .ok (lit "[\"1a\",\"2b\",\"3c\"]") ∧
    (New [lit "b\"c", lit "a\\"]).MarshalJSON = .ok (lit "[\"a\\\\\",\"b\\\"c\"]") ∧
    (New [lit "<&>"]).MarshalJSON = .ok (lit "[\"\\u003c\\u0026\\u003e\"]") ∧
    (New [lit "\n\t\x01"]).MarshalJSON = .ok (lit "[\"\\n\\t\\u0001\"]") ∧
    (New [lit "é\u2028"]).MarshalJSON = .ok (lit "[\"é\\u2028\"]") := by
  refine ⟨fun s => ?_, Set.MarshalJSON_of_empty, fun s hx hv => ?_, fun s hx hs => ?_,
    fun s => ⟨s.elems_Values_strict, s.mem_elems_Values⟩, Set.MarshalJSON_eq,
    by decide, by decide, by decide, by decide, by decide, by decide, by decide, by decide⟩
  · rw [Set.MarshalJSON_eq]
    cases s.Values <;> exact ⟨_, rfl⟩
  · refine ⟨(elems s.Values).map appendString, Set.MarshalJSON_of_members s hx,
      forall₂_isLiteralOf_map _ hv, ?_⟩
    rw [joinWith_eq_intercalate]
    exact jsonUnmarshal_jsonMarshal _ hv
  · have hmap : (elems s.Values).map appendString = (elems s.Values).map doubleQuoted :=
      List.map_congr_left (fun m hm => appendString_safe m (hs m hm))
    rw [Set.MarshalJSON_of_members s hx, hmap]

/-- Witness of C11: the set of "2b", "1a" and "3c". -/
theorem MarshalJSON_output_witness :
    (New [lit "2b", lit "1a", lit "3c"]).MarshalJSON
      = .ok ([0x5B] ++ joinWith [0x2C]
          ((elems (New [lit "2b", lit "1a", lit "3c"]).Values).map doubleQuoted) ++ [0x5D]) ∧
    ((New [lit "a"]).Remove [lit "a"]).MarshalJSON = .ok (lit "null") ∧
    ∃ lits, (New [lit "é", lit "a\"b"]).MarshalJSON
        = .ok ([0x5B] ++ joinWith [0x2C] lits ++ [0x5D]) ∧
      List.Forall₂ IsLiteralOf (elems (New [lit "é", lit "a\"b"]).Values) lits ∧
      jsonUnmarshal ([0x5B] ++ joinWith [0x2C] lits ++ [0x5D])
        = .ok (some (elems (New [lit "é", lit "a\"b"]).Values)) :=
  ⟨MarshalJSON_output.2.2.2.1 (New [lit "2b", lit "1a", lit "3c"]) ⟨lit "1a", by decide⟩
      (by decide),
    MarshalJSON_output.2.1 ((New [lit "a"]).Remove [lit "a"])
      ((Set.Len_eq_zero_iff _).mp (by decide)),
    MarshalJSON_output.2.2.1 (New [lit "é", lit "a\"b"]) ⟨lit "é", by decide⟩ (by decide)⟩

/-- C11 fails as stated: the set of the one-byte string `"\xff"`, which is not
valid UTF-8, is written as the array of the string U+FFFD (the bytes EF BF BD
between quotes), which is no literal for the member: it decodes to the three
bytes of U+FFFD. -/
theorem MarshalJSON_invalid_utf8_member :
    (New [[0xFF]]).MarshalJSON = .ok [0x5B, 0x22, 0xEF, 0xBF, 0xBD, 0x22, 0x5D] ∧
    (New [[0xFF]]).Values = some [[0xFF]] ∧
    jsonUnmarshal [0x5B, 0x22, 0xEF, 0xBF, 0xBD, 0x22, 0x5D] = .ok (some [[0xEF, 0xBF, 0xBD]]) ∧
    ¬ ∃ lits, (New [[0xFF]]).MarshalJSON = .ok ([0x5B] ++ joinWith [0x2C] lits ++ [0x5D]) ∧
        List.Forall₂ IsLiteralOf (elems (New [[0xFF]]).Values) lits := by
  have hm : (New [[0xFF]]).MarshalJSON = .ok [0x5B, 0x22, 0xEF, 0xBF, 0xBD, 0x22, 0x5D] := by
    decide
  have hv : elems (New [[0xFF]]).Values = [[0xFF]] := by decide
  refine ⟨hm, by decide, by decide, ?_⟩
  rintro ⟨lits, hl, hf⟩
  rw [hv] at hf
  rw [hm] at hl
  have hdata := Except.ok.inj hl
  cases hf with
  | cons h1 hrest =>
    cases hrest
    obtain ⟨body, htext, _, hunq⟩ := h1
    subst htext
    simp only [joinWith, List.singleton_append, List.cons_append, List.nil_append,
      List.cons.injEq, true_and, List.append_assoc] at hdata
    have hbody : body = [0xEF, 0xBF, 0xBD] := by
      have h2 : [(0xEF : Byte), 0xBF, 0xBD] ++ [0x22, 0x5D] = body ++ [0x22, 0x5D] := by
        simpa using hdata
      exact (List.append_cancel_right h2).symm
    subst hbody
    exact absurd hunq (by decide)

theorem Set.GoString_of_empty (table : Nat → Bool) (s : Set)
    (h : ∀ x : Str, s.Contains x = false) : s.GoString table = lit "stringset.Set(nil)" := by
  rw [Set.GoString_eq, if_pos ((Set.Len_eq_zero_iff s).mpr h)]

theorem Set.GoString_of_printable (table : Nat → Bool) (s : Set)
    (hx : ∃ x : Str, s.Contains x = true)
    (hp : ∀ m ∈ elems s.Values, printable table m = true) :
    s.GoString table = lit "stringset.Set" ++ ([0x7B] ++
      joinWith (lit ", ") ((elems s.Values).map doubleQuoted) ++ [0x7D]) := by
  have hl : s.Len ≠ 0 := by
    intro h0
    obtain ⟨x, hx⟩ := hx
    rw [(Set.Len_eq_zero_iff s).mp h0 x] at hx
    exact Bool.false_ne_true hx
  rw [Set.GoString_eq, if_neg hl, map_strconvQuote_printable table _ hp,
    joinWith_eq_intercalate]

theorem GoString_quote_member (table : Nat → Bool) :
    (New [lit "a\"b"]).GoString table = lit "stringset.Set\x7b\"a\\\"b\"\x7d" := rfl

/-- C17, as amended: `GoString` is the type name followed by `(nil)` for a set
without members, nil or allocated; for a set with members that are valid UTF-8
made of printable characters other than `"` and `\` it is the type name followed
by `{`, the members in ascending order, each between double quotes and separated
by `, `, and `}`.  Any other member is written escaped, as a Go string literal. -/
theorem GoString_format :
    (∀ (table : Nat → Bool) (s : Set), (∀ x : Str, s.Contains x = false) →
      s.GoString table = lit "stringset.Set(nil)") ∧
    (∀ (table : Nat → Bool) (s : Set), (∃ x : Str, s.Contains x = true) →
      (∀ m ∈ elems s.Values, printable table m = true) →
      s.GoString table = lit "stringset.Set" ++ ([0x7B] ++
        joinWith (lit ", ") ((elems s.Values).map doubleQuoted) ++ [0x7D])) ∧
    (∀ s : Set, (elems s.Values).Pairwise (fun a b => strLess a b = true) ∧
      ∀ x : Str, x ∈ elems s.Values ↔ s.Contains x = true) ∧
    (∀ table : Nat → Bool, Set.nil.GoString table = lit "stringset.Set(nil)") ∧
    (∀ table : Nat → Bool, (New []).GoString table = lit "stringset.Set(nil)") ∧
    (∀ table : Nat → Bool, (New [lit "1"]).GoString table = lit "stringset.Set\x7b\"1\"\x7d") ∧
    (∀ table : Nat → Bool, (New [lit "2b", lit "1a", lit "3c"]).GoString table
      = lit "stringset.Set\x7b\"1a\", \"2b\", \"3c\"\x7d") ∧
    (∀ table : Nat → Bool, (New [lit "é"]).GoString table = lit "stringset.Set\x7b\"é\"\x7d") ∧
    (∀ table : Nat → Bool, (New [lit "a\"b"]).GoString table
      = lit "stringset.Set\x7b\"a\\\"b\"\x7d") ∧
    (∀ table : Nat → Bool, (New [lit "a\\b"]).GoString table
      = lit "stringset.Set\x7b\"a\\\\b\"\x7d") ∧
    (∀ table : Nat → Bool, (New [lit "\n\t\x01\x7f"]).GoString table
      = lit "stringset.Set\x7b\"\\n\\t\\x01\\x7f\"\x7d") ∧
    (∀ table : Nat → Bool, (New [[0xFF]]).GoString table
      = lit "stringset.Set\x7b\"\\xff\"\x7d") ∧
    (∀ table : Nat → Bool, (New [[0xC2, 0xAD]]).GoString table
      = lit "stringset.Set\x7b\"\\u00ad\"\x7d") := by
  exact ⟨Set.GoString_of_empty, Set.GoString_of_printable,
    fun s => ⟨s.elems_Values_strict, s.mem_elems_Values⟩,
    fun _ => rfl, fun _ => rfl, fun _ => rfl, GoString_three, fun _ => rfl,
    GoString_quote_member, fun _ => rfl, fun _ => rfl, fun _ => rfl, fun _ => rfl⟩

/-- Witness of C17: the set of "2b", "1a" and "3c", and a set emptied by `Remove`. -/
theorem GoString_format_witness :
    (New [lit "2b", lit "1a", lit "3c"]).GoString (fun _ => false)
      = lit "stringset.Set" ++ ([0x7B] ++ joinWith (lit ", ")
          ((elems (New [lit "2b", lit "1a", lit "3c"]).Values).map doubleQuoted) ++ [0x7D]) ∧
    ((New [lit "a"]).Remove [lit "a"]).GoString (fun _ => false) = lit "stringset.Set(nil)" :=
  ⟨GoString_format.2.1 (fun _ => false) (New [lit "2b", lit "1a", lit "3c"])
      ⟨lit "1a", by decide⟩ (by decide),
    GoString_format.1 (fun _ => false) ((New [lit "a"]).Remove [lit "a"])
      ((Set.Len_eq_zero_iff _).mp (by decide))⟩

/-- C17 fails as stated: the member `a"b` is not written between double quotes as
it is; its quote is escaped with a backslash. -/
theorem GoString_escaped_member :
    (New [lit "a\"b"]).GoString (fun _ => false) = lit "stringset.Set\x7b\"a\\\"b\"\x7d" ∧
    (New [lit "a\"b"]).Values = some [lit "a\"b"] ∧
    lit "stringset.Set" ++ ([0x7B] ++ joinWith (lit ", ") ([lit "a\"b"].map doubleQuoted)
        ++ [0x7D]) = lit "stringset.Set\x7b\"a\"b\"\x7d" ∧
    ¬ ∃ table : Nat → Bool, (New [lit "a\"b"]).GoString table
        = lit "stringset.Set" ++ ([0x7B] ++ joinWith (lit ", ")
            ((elems (New [lit "a\"b"]).Values).map doubleQuoted) ++ [0x7D]) := by
  refine ⟨by decide, by decide, by decide, ?_⟩
  rintro ⟨table, h⟩
  rw [GoString_quote_member table] at h
  exact absurd h (by decide)

end stringset
